import Mathlib

/-!
# Verification of the arweave-rs chunking / Merkle / proof-validation core

This file gives a shallow embedding in Lean 4 of the parts of the
`arweave-rs` repository that the specification talks about:

* `src/crypto/hash.rs`   — `sha256`, `hash_all_sha256`
* `src/crypto/merkle.rs` — `generate_leaves`, `hash_branch`, `build_layer`,
  `generate_data_root`, `resolve_proofs`, `validate_chunk` and the proof
  (de)serialisation format
* `src/transaction/mod.rs` — `Tx::generate_merkle`, `Tx::get_chunk`
* `src/download.rs`      — `TransactionDataClient::index_chunks`
* `src/nodes.rs`         — the worker step of `NodeClient::find_nodes`

Bytes are modelled as `Nat` (each `< 256` in every real execution),
byte strings as `List Nat`.  Rust `usize`/`u64` values are modelled as
`Nat`; wherever the source truncates to 64 bits (the `as u64` cast in
`to_note_vec`, `u64::from_be_bytes`) the model applies `% 2 ^ 64`
explicitly via 8-byte big-endian encoding.  Functions that can panic in
Rust (`unwrap`, slice-index out of range, `usize` underflow feeding
`split_at`) are modelled with `Option`, `none` standing for a panic.
-/

set_option maxRecDepth 100000

namespace ArweaveRs

/-! ## Byte-level helpers -/

/-- Big-endian encoding of `n` into exactly `k` bytes (the value is taken
modulo `256 ^ k`, which for `k = 8` models Rust's `(x as u64).to_be_bytes()`). -/
def beBytes : Nat → Nat → List Nat
  | 0, _ => []
  | k + 1, n => beBytes k (n / 256) ++ [n % 256]

/-- Big-endian decoding of a byte list; models `u64::from_be_bytes` /
`usize::from_be_bytes` on an 8-byte array. -/
def fromBeBytes (l : List Nat) : Nat :=
  l.foldl (fun a b => a * 256 + b) 0

theorem beBytes_length (k n : Nat) : (beBytes k n).length = k := by
  induction k generalizing n with
  | zero => rfl
  | succ k ih => simp [beBytes, ih]

theorem fromBeBytes_append (a b : List Nat) :
    fromBeBytes (a ++ b) = b.foldl (fun a b => a * 256 + b) (fromBeBytes a) := by
  simp [fromBeBytes, List.foldl_append]

theorem fromBeBytes_beBytes (k n : Nat) (h : n < 256 ^ k) :
    fromBeBytes (beBytes k n) = n := by
  induction k generalizing n with
  | zero =>
    simp [beBytes, fromBeBytes]
    omega
  | succ k ih =>
    have hdiv : n / 256 < 256 ^ k := by
      rw [Nat.div_lt_iff_lt_mul (by norm_num)]
      calc n < 256 ^ (k + 1) := h
        _ = 256 ^ k * 256 := by ring
    have := ih (n / 256) hdiv
    simp [beBytes, fromBeBytes_append, fromBeBytes] at this ⊢
    rw [this]
    omega

/-- `l.chunks(n)` from Rust slices: the list cut into pieces of `n`
elements, the last piece possibly shorter; fuel-based so that it reduces
definitionally (the fuel `l.length` always suffices for `0 < n`). -/
def chunksAux (n : Nat) : Nat → List Nat → List (List Nat)
  | _, [] => []
  | 0, _ :: _ => []
  | fuel + 1, a :: l => (a :: l).take n :: chunksAux n fuel ((a :: l).drop n)

def listChunks (n : Nat) (l : List Nat) : List (List Nat) :=
  chunksAux n l.length l

theorem chunksAux_nil (n f : Nat) : chunksAux n f [] = [] := by
  cases f <;> rfl

theorem chunksAux_fuel (n : Nat) (hn : 0 < n) :
    ∀ (f₁ : Nat) (l : List Nat), l.length ≤ f₁ →
      ∀ f₂, l.length ≤ f₂ → chunksAux n f₁ l = chunksAux n f₂ l := by
  intro f₁
  induction f₁ with
  | zero =>
    intro l hl f₂ _
    match l with
    | [] => rw [chunksAux_nil, chunksAux_nil]
    | a :: l => simp at hl
  | succ f ih =>
    intro l hl f₂ hl₂
    match l, f₂ with
    | [], f₂ => rw [chunksAux_nil, chunksAux_nil]
    | a :: l, 0 => simp at hl₂
    | a :: l, g + 1 =>
      simp only [chunksAux]
      congr 1
      apply ih
      · have : ((a :: l).drop n).length = (a :: l).length - n := by
          simp
        omega
      · have : ((a :: l).drop n).length = (a :: l).length - n := by
          simp
        omega

theorem listChunks_nil (n : Nat) : listChunks n [] = [] := rfl

theorem listChunks_cons_eq (n : Nat) (hn : 0 < n) (l : List Nat) (hl : l ≠ []) :
    listChunks n l = l.take n :: listChunks n (l.drop n) := by
  match l with
  | [] => simp at hl
  | a :: l =>
    show chunksAux n (l.length + 1) (a :: l) = _
    simp only [chunksAux]
    congr 1
    apply chunksAux_fuel n hn
    · simp; omega
    · rfl

/-- Taking a full-size piece off the front. -/
theorem listChunks_append (n : Nat) (hn : 0 < n) (a b : List Nat)
    (ha : a.length = n) : listChunks n (a ++ b) = a :: listChunks n b := by
  have hne : a ++ b ≠ [] := by
    intro h
    rcases List.append_eq_nil.mp h with ⟨h1, _⟩
    subst h1; simp at ha; omega
  rw [listChunks_cons_eq n hn _ hne]
  congr 1
  · rw [← ha, List.take_left]
  · rw [← ha, List.drop_left]

/-- A single short (or exactly full) piece. -/
theorem listChunks_single (n : Nat) (l : List Nat) (h0 : l ≠ [])
    (hle : l.length ≤ n) : listChunks n l = [l] := by
  have hn : 0 < n := by
    match l with
    | [] => simp at h0
    | a :: l => simp at hle; omega
  rw [listChunks_cons_eq n hn l h0, List.take_of_length_le hle,
    List.drop_eq_nil_of_le hle, listChunks_nil]

theorem listChunks_fuel_ind (n : Nat) (hn : 0 < n) (p : List Nat → Prop)
    (hnil : p []) (hstep : ∀ l, l ≠ [] → p (l.drop n) → p l) :
    ∀ l, p l := by
  suffices h : ∀ f l, l.length ≤ f → p l by
    intro l; exact h l.length l le_rfl
  intro f
  induction f with
  | zero =>
    intro l hl
    match l with
    | [] => exact hnil
    | a :: l => simp at hl
  | succ f ih =>
    intro l hl
    match l with
    | [] => exact hnil
    | a :: l =>
      refine hstep _ (by simp) (ih _ ?_)
      simp at hl ⊢
      omega

theorem flatten_listChunks (n : Nat) (hn : 0 < n) (l : List Nat) :
    (listChunks n l).flatten = l := by
  induction l using listChunks_fuel_ind n hn with
  | hnil => simp [listChunks_nil]
  | hstep l hne ih =>
    rw [listChunks_cons_eq n hn _ hne]
    simp only [List.flatten_cons]
    rw [ih]
    exact List.take_append_drop n l

theorem listChunks_length_le (n : Nat) (hn : 0 < n) (l : List Nat) :
    ∀ c ∈ listChunks n l, c.length ≤ n := by
  induction l using listChunks_fuel_ind n hn with
  | hnil => simp [listChunks_nil]
  | hstep l hne ih =>
    rw [listChunks_cons_eq n hn _ hne]
    intro c hc
    rcases List.mem_cons.mp hc with h | h
    · subst h; simp
    · exact ih c h

theorem listChunks_ne_nil_mem (n : Nat) (hn : 0 < n) (l : List Nat) :
    ∀ c ∈ listChunks n l, c ≠ [] := by
  induction l using listChunks_fuel_ind n hn with
  | hnil => simp [listChunks_nil]
  | hstep l hne ih =>
    rw [listChunks_cons_eq n hn _ hne]
    intro c hc
    rcases List.mem_cons.mp hc with h | h
    · subst h
      rw [Ne, List.take_eq_nil_iff]
      rintro (h | h)
      · omega
      · exact hne h
    · exact ih c h

/-! ## SHA-256 (`src/crypto/hash.rs` delegates to the `sha2` crate; this is
the FIPS 180-4 algorithm, executable, over byte lists) -/

def w32 : Nat := 4294967296

/-- Right rotation of a 32-bit word. -/
def rotr (n x : Nat) : Nat := ((x >>> n) ||| (x <<< (32 - n))) % w32

/-- Rounds 0–15 of the FIPS 180-4 round-constant table (decimal). -/
def shaKpart0 : List Nat :=
  [1116352408, 1899447441, 3049323471, 3921009573, 961987163, 1508970993,
   2453635748, 2870763221, 3624381080, 310598401, 607225278, 1426881987,
   1925078388, 2162078206, 2614888103, 3248222580]

/-- Rounds 16–31 of the round-constant table. -/
def shaKpart1 : List Nat :=
  [3835390401, 4022224774, 264347078, 604807628, 770255983, 1249150122,
   1555081692, 1996064986, 2554220882, 2821834349, 2952996808, 3210313671,
   3336571891, 3584528711, 113926993, 338241895]

/-- Rounds 32–47 of the round-constant table. -/
def shaKpart2 : List Nat :=
  [666307205, 773529912, 1294757372, 1396182291, 1695183700, 1986661051,
   2177026350, 2456956037, 2730485921, 2820302411, 3259730800, 3345764771,
   3516065817, 3600352804, 4094571909, 275423344]

/-- Rounds 48–63 of the round-constant table. -/
def shaKpart3 : List Nat :=
  [430227734, 506948616, 659060556, 883997877, 958139571, 1322822218,
   1537002063, 1747873779, 1955562222, 2024104815, 2227730452, 2361852424,
   2428436474, 2756734187, 3204031479, 3329325298]

def shaK : List Nat := shaKpart0 ++ shaKpart1 ++ shaKpart2 ++ shaKpart3

/-- The initial hash state (decimal). -/
def shaH0 : List Nat :=
  [1779033703, 3144134277, 1013904242, 2773480762,
   1359893119, 2600822924, 528734635, 1541459225]

/-- Merkle–Damgård padding: append `0x80`, zero bytes to 56 mod 64, then the
message bit length as 8 big-endian bytes. -/
def shaPad (m : List Nat) : List Nat :=
  m ++ [128] ++ List.replicate ((64 - (m.length + 9) % 64) % 64) 0
    ++ beBytes 8 (8 * m.length)

/-- Pack bytes into 32-bit big-endian words. -/
def toWords : List Nat → List Nat
  | b0 :: b1 :: b2 :: b3 :: rest =>
      (((b0 * 256 + b1) * 256 + b2) * 256 + b3) :: toWords rest
  | _ => []

def smallSigma0 (x : Nat) : Nat := (rotr 7 x) ^^^ (rotr 18 x) ^^^ (x >>> 3)

def smallSigma1 (x : Nat) : Nat := (rotr 17 x) ^^^ (rotr 19 x) ^^^ (x >>> 10)

def bigSigma0 (x : Nat) : Nat := (rotr 2 x) ^^^ (rotr 13 x) ^^^ (rotr 22 x)

def bigSigma1 (x : Nat) : Nat := (rotr 6 x) ^^^ (rotr 11 x) ^^^ (rotr 25 x)

/-- Extend a 16-word block to the 64-word message schedule. -/
def extendWords : Nat → List Nat → List Nat
  | 0, ws => ws
  | f + 1, ws =>
      let t := ws.length
      let nw := (smallSigma1 (ws.getD (t - 2) 0) + ws.getD (t - 7) 0
        + smallSigma0 (ws.getD (t - 15) 0) + ws.getD (t - 16) 0) % w32
      extendWords f (ws ++ [nw])

/-- One round of the SHA-256 compression function on the 8-word state. -/
def shaRound (st : List Nat) (k w : Nat) : List Nat :=
  match st with
  | [a, b, c, d, e, f, g, h] =>
      let ch := (e &&& f) ^^^ ((e ^^^ (w32 - 1)) &&& g)
      let temp1 := (h + bigSigma1 e + ch + k + w) % w32
      let maj := (a &&& b) ^^^ (a &&& c) ^^^ (b &&& c)
      let temp2 := (bigSigma0 a + maj) % w32
      [(temp1 + temp2) % w32, a, b, c, (d + temp1) % w32, e, f, g]
  | st => st

def compressBlock (h : List Nat) (block : List Nat) : List Nat :=
  let ws := extendWords 48 block
  let st := (List.zip shaK ws).foldl (fun st kw => shaRound st kw.1 kw.2) h
  List.zipWith (fun x y => (x + y) % w32) h st

def shaBlocks : Nat → List Nat → List Nat → List Nat
  | 0, h, _ => h
  | _ + 1, h, [] => h
  | f + 1, h, ws => shaBlocks f (compressBlock h (ws.take 16)) (ws.drop 16)

def sha256 (m : List Nat) : List Nat :=
  let ws := toWords (shaPad m)
  (shaBlocks ws.length shaH0 ws).foldr (fun w acc => beBytes 4 w ++ acc) []

/-- `hash_all_sha256` from `src/crypto/hash.rs`: SHA-256 of the concatenated
SHA-256 digests of the messages. -/
def hash_all_sha256 (messages : List (List Nat)) : List Nat :=
  sha256 (messages.map sha256).flatten

theorem shaRound_length (st : List Nat) (k w : Nat) :
    (shaRound st k w).length = st.length := by
  rcases st with _ | ⟨a, _ | ⟨b, _ | ⟨c, _ | ⟨d, _ | ⟨e, _ | ⟨f, _ | ⟨g, _ | ⟨h, _ | ⟨i, t⟩⟩⟩⟩⟩⟩⟩⟩⟩ <;> rfl

theorem foldl_shaRound_length (l : List (Nat × Nat)) (st : List Nat) :
    (l.foldl (fun st kw => shaRound st kw.1 kw.2) st).length = st.length := by
  induction l generalizing st with
  | nil => rfl
  | cons x l ih => simp [List.foldl_cons, ih, shaRound_length]

theorem compressBlock_length (h block : List Nat) (hh : h.length = 8) :
    (compressBlock h block).length = 8 := by
  simp [compressBlock, foldl_shaRound_length, hh]

theorem shaBlocks_length (f : Nat) (h ws : List Nat) (hh : h.length = 8) :
    (shaBlocks f h ws).length = 8 := by
  induction f generalizing h ws with
  | zero => simpa [shaBlocks]
  | succ f ih =>
    match ws with
    | [] => simpa [shaBlocks]
    | w :: ws => exact ih _ _ (compressBlock_length _ _ hh)

theorem foldr_beBytes_length (l : List Nat) :
    (l.foldr (fun w acc => beBytes 4 w ++ acc) ([] : List Nat)).length
      = 4 * l.length := by
  induction l with
  | nil => rfl
  | cons x l ih =>
    simp [List.foldr_cons, ih, beBytes_length]
    ring

theorem sha256_length (m : List Nat) : (sha256 m).length = 32 := by
  rw [sha256, foldr_beBytes_length, shaBlocks_length _ _ _ (by rfl)]

theorem hash_all_sha256_length (messages : List (List Nat)) :
    (hash_all_sha256 messages).length = 32 :=
  sha256_length _

/-! ## Merkle engine (`src/crypto/merkle.rs`)

The Rust `Node` is a single struct with an optional `data_hash` and two
optional boxed children; the code enforces (via `unreachable!` arms in
`resolve_proofs` and `validate_chunk`) that every node is either a pure
leaf (`data_hash` present, no children) or a pure branch (`data_hash`
absent, both children present).  The embedding uses the corresponding
sum type; the `unreachable!` states are unrepresentable. -/

def MAX_CHUNK_SIZE : Nat := 256 * 1024

def MIN_CHUNK_SIZE : Nat := 32 * 1024

def HASH_SIZE : Nat := 32

def NOTE_SIZE : Nat := 32

inductive Node where
  | leaf (id : List Nat) (data_hash : List Nat)
      (min_byte_range max_byte_range : Nat)
  | branch (id : List Nat) (min_byte_range max_byte_range : Nat)
      (left_child right_child : Node)
deriving DecidableEq

def Node.id : Node → List Nat
  | .leaf i _ _ _ => i
  | .branch i _ _ _ _ => i

def Node.min_byte_range : Node → Nat
  | .leaf _ _ mn _ => mn
  | .branch _ mn _ _ _ => mn

def Node.max_byte_range : Node → Nat
  | .leaf _ _ _ mx => mx
  | .branch _ _ mx _ _ => mx

def Node.data_hash : Node → Option (List Nat)
  | .leaf _ d _ _ => some d
  | .branch _ _ _ _ _ => none

structure Proof where
  offset : Nat
  proof : List Nat
deriving DecidableEq

/-- `usize::to_note_vec`: 24 zero bytes followed by the value as u64
big-endian, i.e. the 32-byte left-zero-padded big-endian encoding. -/
def to_note_vec (n : Nat) : List Nat :=
  List.replicate (NOTE_SIZE - 8) 0 ++ beBytes 8 n

theorem to_note_vec_length (n : Nat) : (to_note_vec n).length = 32 := by
  simp [to_note_vec, beBytes_length, NOTE_SIZE]

/-- First phase of the chunk list built by `generate_leaves`: split into
`MAX_CHUNK_SIZE` chunks; when there is more than one chunk and the last is
shorter than `MIN_CHUNK_SIZE`, split off the last two raw chunks,
concatenate them and re-split into two ceil-divided halves. -/
def mergedChunks (data : List Nat) : List (List Nat) :=
  let dc := listChunks MAX_CHUNK_SIZE data
  if 1 < dc.length ∧ (dc.getLastD []).length < MIN_CHUNK_SIZE then
    let last_two := (dc.drop (dc.length - 2)).flatten
    let chunk_size := last_two.length / 2
      + (if last_two.length % 2 ≠ 0 then 1 else 0)
    dc.take (dc.length - 2) ++ listChunks chunk_size last_two
  else dc

/-- The chunk list of `generate_leaves`: the merged chunks, with one empty
chunk appended when the final chunk is exactly `MAX_CHUNK_SIZE` long. -/
def data_chunks (data : List Nat) : List (List Nat) :=
  if ((mergedChunks data).getLastD []).length = MAX_CHUNK_SIZE then
    mergedChunks data ++ [[]]
  else mergedChunks data

/-- The leaf-building loop at the end of `generate_leaves`: `min_byte_range`
runs cumulatively, `id = hash_all_sha256([data_hash, note(max_byte_range)])`. -/
def leaves_from_chunks : List (List Nat) → Nat → List Node
  | [], _ => []
  | chunk :: rest, min_byte_range =>
      let data_hash := sha256 chunk
      let max_byte_range := min_byte_range + chunk.length
      Node.leaf (hash_all_sha256 [data_hash, to_note_vec max_byte_range])
        data_hash min_byte_range max_byte_range
        :: leaves_from_chunks rest max_byte_range

/-- `generate_leaves`; `none` models the panic on empty input
(`data_chunks.last().unwrap()` with no chunks). -/
def generate_leaves (data : List Nat) : Option (List Node) :=
  if data.length = 0 then none
  else some (leaves_from_chunks (data_chunks data) 0)

/-- `hash_branch`; the Rust function always returns `Ok`.  Note that the
branch gets `min_byte_range = left.max_byte_range`. -/
def hash_branch (left right : Node) : Node :=
  Node.branch
    (hash_all_sha256 [left.id, right.id, to_note_vec left.max_byte_range])
    left.max_byte_range right.max_byte_range left right

/-- `build_layer`: pair adjacent nodes left to right; a trailing unpaired
node is promoted unchanged. -/
def build_layer : List Node → List Node
  | [] => []
  | [x] => [x]
  | l :: r :: rest => hash_branch l r :: build_layer rest

/-- The `while nodes.len() > 1` loop of `generate_data_root`, fuel-based
(fuel `nodes.length` always suffices since `build_layer` halves). -/
def gdrAux : Nat → List Node → List Node
  | 0, ns => ns
  | f + 1, ns => if 1 < ns.length then gdrAux f (build_layer ns) else ns

/-- `generate_data_root`; `none` models the `pop().unwrap()` panic on an
empty list. -/
def generate_data_root (nodes : List Node) : Option Node :=
  (gdrAux nodes.length nodes).head?

/-- `resolve_proofs`: depth-first proof accumulation.  At a leaf the proof
is extended with `data_hash ++ note(max_byte_range)` and the offset is set
to `max_byte_range - 1`; at a branch it is extended with
`left.id ++ right.id ++ note(min_byte_range)` and both children are
visited with copies of the accumulated proof. -/
def resolve_proofs (node : Node) (proof : Option Proof) : List Proof :=
  let p := proof.getD ⟨0, []⟩
  match node with
  | .leaf _ data_hash _ max_byte_range =>
      [⟨max_byte_range - 1, p.proof ++ data_hash ++ to_note_vec max_byte_range⟩]
  | .branch _ min_byte_range _ left_child right_child =>
      let pp := p.proof ++ left_child.id ++ right_child.id
        ++ to_note_vec min_byte_range
      resolve_proofs left_child (some ⟨p.offset, pp⟩)
        ++ resolve_proofs right_child (some ⟨p.offset, pp⟩)

/-! ### Proof deserialisation and `validate_chunk`

`BranchProof`/`LeafProof` are read with borsh from fixed-size slices:
a branch record is `left_id[32] ++ right_id[32] ++ notepad[24] ++
offset[8]`, a leaf record `data_hash[32] ++ notepad[24] ++ offset[8]`;
`offset()` decodes the final 8 bytes big-endian.  `try_from_proof_slice`
calls `.unwrap()` on the borsh result, so a slice of the wrong length
panics (`none`), it never returns `Err`. -/

inductive MerkleError where
  | InvalidProof
deriving DecidableEq

structure BranchProofRec where
  left_id : List Nat
  right_id : List Nat
  offset : Nat
deriving DecidableEq

structure LeafProofRec where
  data_hash : List Nat
  offset : Nat
deriving DecidableEq

def parseBranchProof (b : List Nat) : Option BranchProofRec :=
  if b.length = HASH_SIZE * 2 + NOTE_SIZE then
    some ⟨b.take 32, (b.drop 32).take 32, fromBeBytes ((b.drop 88).take 8)⟩
  else none

def parseLeafProof (b : List Nat) : Option LeafProofRec :=
  if b.length = HASH_SIZE + NOTE_SIZE then
    some ⟨b.take 32, fromBeBytes ((b.drop 56).take 8)⟩
  else none

def parseBranchProofs : List (List Nat) → Option (List BranchProofRec)
  | [] => some []
  | b :: rest =>
      match parseBranchProof b, parseBranchProofs rest with
      | some r, some rs => some (r :: rs)
      | _, _ => none

/-- The `for branch_proof in branch_proofs` loop of `validate_chunk`:
recompute each branch id, compare with the expected root, then descend
right when `max_byte_range > offset`, else left.  Returns the expected
id for the leaf record. -/
def validateBranches (root_id : List Nat) (max_byte_range : Nat) :
    List BranchProofRec → Except MerkleError (List Nat)
  | [] => .ok root_id
  | bp :: rest =>
      let id := hash_all_sha256 [bp.left_id, bp.right_id, to_note_vec bp.offset]
      if id ≠ root_id then .error .InvalidProof
      else validateBranches
        (if bp.offset < max_byte_range then bp.right_id else bp.left_id)
        max_byte_range rest

/-- `validate_chunk`.  `none` models a panic: the `usize` underflow in
`split_at` when the proof is shorter than 64 bytes, the `unwrap` on a
failed borsh parse of a malformed branch region, and the `unreachable!`
on a branch-node chunk.  Faithfully to the source, the final leaf check
errors only when BOTH the recomputed id differs from the expected root
AND the chunk's `data_hash` differs from the one stored in the proof
(`if id != root_id && data_hash != leaf_proof.data_hash`). -/
def validate_chunk (root_id : List Nat) (chunk : Node) (proof : Proof) :
    Option (Except MerkleError Unit) :=
  match chunk with
  | .leaf _ data_hash _ max_byte_range =>
      if proof.proof.length < HASH_SIZE + NOTE_SIZE then none
      else
        let branches := proof.proof.take (proof.proof.length - (HASH_SIZE + NOTE_SIZE))
        let leaf := proof.proof.drop (proof.proof.length - (HASH_SIZE + NOTE_SIZE))
        match parseBranchProofs (listChunks (HASH_SIZE * 2 + NOTE_SIZE) branches),
            parseLeafProof leaf with
        | some branch_proofs, some leaf_proof =>
            match validateBranches root_id max_byte_range branch_proofs with
            | .error e => some (.error e)
            | .ok expected =>
                let id := hash_all_sha256 [data_hash, to_note_vec max_byte_range]
                if id ≠ expected ∧ data_hash ≠ leaf_proof.data_hash then
                  some (.error .InvalidProof)
                else some (.ok ())
        | _, _ => none
  | .branch _ _ _ _ _ => none

/-! ## Transactions (`src/transaction/mod.rs`)

`Base64` wraps a byte vector, `Currency`/`u64` amounts are `Nat`.  Fields
irrelevant to the claims (`tags`, which carry name/value byte pairs) are
kept as raw byte-pair lists. -/

structure Tx where
  format : Nat
  id : List Nat
  last_tx : List Nat
  owner : List Nat
  tags : List (List Nat × List Nat)
  target : List Nat
  quantity : Nat
  data_root : List Nat
  data : List Nat
  data_size : Nat
  reward : Nat
  signature : List Nat
  chunks : List Node
  proofs : List Proof
deriving DecidableEq

def Tx.default : Tx :=
  ⟨0, [], [], [], [], [], 0, [], [], 0, 0, [], [], []⟩

/-- The `Chunk` wire struct produced by `Tx::get_chunk`. -/
structure Chunk where
  data_root : List Nat
  data_size : Nat
  data_path : List Nat
  offset : Nat
  chunk : List Nat
deriving DecidableEq

/-- `Tx::generate_merkle`: build leaves, root and proofs for the data;
discard the final chunk and proof when that chunk has zero length; store
the root id as `data_root`.  `none` propagates the panics of the callees. -/
def Tx.generate_merkle (data : List Nat) : Option Tx :=
  if data.isEmpty then
    some { Tx.default with format := 2, data_size := 0, data := [], data_root := [] }
  else
    match generate_leaves data with
    | none => none
    | some chunks =>
      match generate_data_root chunks with
      | none => none
      | some root =>
        let data_root := root.id
        let proofs := resolve_proofs root none
        match chunks.getLast? with
        | none => none
        | some last_chunk =>
          let pair :=
            if last_chunk.max_byte_range = last_chunk.min_byte_range then
              (chunks.dropLast, proofs.dropLast)
            else (chunks, proofs)
          some { Tx.default with
            format := 2, data_size := data.length, data := data,
            data_root := data_root, chunks := pair.1, proofs := pair.2 }

/-- `Tx::get_chunk`: index into the stored proofs and chunks and slice
`data[min_byte_range..max_byte_range]`; `none` models the index / slice
panics. -/
def Tx.get_chunk (tx : Tx) (idx : Nat) : Option Chunk :=
  match tx.proofs[idx]?, tx.chunks[idx]? with
  | some proof, some chunk =>
      if chunk.min_byte_range ≤ chunk.max_byte_range
          ∧ chunk.max_byte_range ≤ tx.data.length then
        some ⟨tx.data_root, tx.data_size, proof.proof, proof.offset,
          (tx.data.drop chunk.min_byte_range).take
            (chunk.max_byte_range - chunk.min_byte_range)⟩
      else none
  | _, _ => none

/-! ## Chunk indexing for download (`src/download.rs`) -/

def CHUNK_SIZE : Nat := 1024 * 256

/-- One entry of the window index built by `index_chunks` (the `node` and
`chunk` fields of `DataChunk` are `None`/empty at indexing time and
omitted). -/
structure DataChunk where
  seed_offset : Nat
  file_offset : Nat
  size : Nat
deriving DecidableEq

/-- The `while file_offset < size + 1 && file_offset + CHUNK_SIZE < size`
loop of `index_chunks`, fuel-based; after the loop one final window of
size `size % CHUNK_SIZE` is pushed. -/
def indexChunksAux (start_offset size : Nat) : Nat → Nat → List DataChunk
  | 0, _ => []
  | fuel + 1, file_offset =>
      if file_offset < size + 1 ∧ file_offset + CHUNK_SIZE < size then
        ⟨start_offset + file_offset, file_offset, CHUNK_SIZE⟩
          :: indexChunksAux start_offset size fuel (file_offset + CHUNK_SIZE)
      else
        [⟨start_offset + file_offset, file_offset, size % CHUNK_SIZE⟩]

/-- `TransactionDataClient::index_chunks`, reduced to its pure part: the
window list for a transaction of `size` bytes seeded at `start_offset`
(in the source `start_offset = offset - size + 1` comes from the peer). -/
def index_chunks (start_offset size : Nat) : List DataChunk :=
  indexChunksAux start_offset size (size / CHUNK_SIZE + 1) 0

/-! ## Peer discovery worker step (`src/nodes.rs`)

The shared `HashMap<Node, PeerProcessingStatus>` cache is modelled as an
association list with first-hit lookup; `find_nodes_step` is the body of
the `filter_map` closure in `find_nodes` for one completed peer request,
returning the updated cache and the list of newly enqueued
`(address, depth)` work items. -/

inductive PeerProcessingStatus where
  | Pending
  | Ok
  | Failed
deriving DecidableEq

abbrev PeerCache := List (String × PeerProcessingStatus)

def cacheContains (cache : PeerCache) (k : String) : Bool :=
  cache.any (fun e => e.1 = k)

def cacheLookup (cache : PeerCache) (k : String) : Option PeerProcessingStatus :=
  (cache.find? (fun e => e.1 = k)).map (·.2)

/-- `HashMap::insert` semantics on the association list. -/
def cacheInsert (cache : PeerCache) (k : String) (v : PeerProcessingStatus) :
    PeerCache :=
  if cacheContains cache k then
    cache.map (fun e => if e.1 = k then (k, v) else e)
  else cache ++ [(k, v)]

/-- `*cache.get_mut(&node).expect(..) = status`: `none` models the panic
when the node is missing from the cache. -/
def cacheUpdate (cache : PeerCache) (k : String) (v : PeerProcessingStatus) :
    Option PeerCache :=
  if cacheContains cache k then some (cacheInsert cache k v) else none

/-- One worker step of `find_nodes` for a completed request of `node` at
`depth`: on `Ok peers` mark the node `Ok` and, when `depth < max_depth`,
insert every peer not already cached as `Pending` and enqueue it with
`depth + 1`; on failure mark the node `Failed` and enqueue nothing. -/
def find_nodes_step (max_depth : Nat) (cache : PeerCache) (node : String)
    (depth : Nat) (res : Except Unit (List String)) :
    Option (PeerCache × List (String × Nat)) :=
  match res with
  | .ok peers =>
      match cacheUpdate cache node .Ok with
      | none => none
      | some cache1 =>
        if depth < max_depth then
          let new_nodes := (peers.filter
            (fun peer => ¬ cacheContains cache1 peer)).map
            (fun node => (node, depth + 1))
          some (new_nodes.foldl
            (fun c pd => cacheInsert c pd.1 .Pending) cache1, new_nodes)
        else some (cache1, [])
  | .error _ =>
      match cacheUpdate cache node .Failed with
      | none => none
      | some cache1 => some (cache1, [])

/-! ## Structure of honest trees and their proofs -/

/-- The leaves of a tree in left-to-right order. -/
def Node.leafList : Node → List Node
  | .leaf i d mn mx => [.leaf i d mn mx]
  | .branch _ _ _ l r => l.leafList ++ r.leafList

/-- The branch records (root to leaf) that `resolve_proofs` serialises on
the path to each leaf, in leaf order. -/
def branchRecords : Node → List (List BranchProofRec)
  | .leaf _ _ _ _ => [[]]
  | .branch _ mn _ l r =>
      (branchRecords l ++ branchRecords r).map
        (fun recs => ⟨l.id, r.id, mn⟩ :: recs)

def serBranchRec (r : BranchProofRec) : List Nat :=
  r.left_id ++ r.right_id ++ to_note_vec r.offset

def serBranchRecs (rs : List BranchProofRec) : List Nat :=
  (rs.map serBranchRec).flatten

/-- The serialised leaf record of a leaf node. -/
def leafRecordBytes : Node → List Nat
  | .leaf _ d _ mx => d ++ to_note_vec mx
  | .branch _ _ _ _ _ => []

theorem leafList_ne_nil (n : Node) : n.leafList ≠ [] := by
  induction n with
  | leaf i d mn mx => simp [Node.leafList]
  | branch i mn mx l r ihl ihr => simp [Node.leafList, ihl]

theorem mem_leafList_isLeaf (n : Node) :
    ∀ u ∈ n.leafList, ∃ i d mn mx, u = Node.leaf i d mn mx := by
  induction n with
  | leaf i d mn mx =>
    intro u hu
    simp [Node.leafList] at hu
    exact ⟨i, d, mn, mx, hu⟩
  | branch i mn mx l r ihl ihr =>
    intro u hu
    rcases List.mem_append.mp hu with h | h
    · exact ihl u h
    · exact ihr u h

theorem length_branchRecords (n : Node) :
    (branchRecords n).length = n.leafList.length := by
  induction n with
  | leaf i d mn mx => rfl
  | branch i mn mx l r ihl ihr =>
    simp [branchRecords, Node.leafList, ihl, ihr]

theorem zipWith_congr_all {α β γ : Type} (f g : α → β → γ) (la : List α)
    (lb : List β) (h : ∀ a b, f a b = g a b) :
    List.zipWith f la lb = List.zipWith g la lb := by
  induction la generalizing lb with
  | nil => simp
  | cons a la ih => cases lb <;> simp [h, ih]

/-- `resolve_proofs` in closed form: one proof per leaf in leaf order, each
consisting of the accumulated prefix, the serialised branch records of the
path, and the leaf record, with `offset = max_byte_range - 1`. -/
theorem resolve_proofs_eq (n : Node) (po : Option Proof) :
    resolve_proofs n po =
      List.zipWith
        (fun (L : Node) recs =>
          Proof.mk (L.max_byte_range - 1)
            ((po.getD ⟨0, []⟩).proof ++ serBranchRecs recs ++ leafRecordBytes L))
        n.leafList (branchRecords n) := by
  induction n generalizing po with
  | leaf i d mn mx =>
    simp [resolve_proofs, Node.leafList, branchRecords, serBranchRecs,
      leafRecordBytes, Node.max_byte_range]
  | branch i mn mx l r ihl ihr =>
    simp only [resolve_proofs, Node.leafList, branchRecords]
    rw [ihl, ihr, List.map_append,
      List.zipWith_append _ _ _ _ _ (by simp [length_branchRecords])]
    congr 1
    · rw [List.zipWith_map_right]
      apply zipWith_congr_all
      intro a b
      simp [serBranchRecs, serBranchRec, List.append_assoc]
    · rw [List.zipWith_map_right]
      apply zipWith_congr_all
      intro a b
      simp [serBranchRecs, serBranchRec, List.append_assoc]

/-- Well-formedness of a tree as produced by `generate_leaves` and
`build_layer`: ids and data hashes are digests (32 bytes), each branch id
is the `hash_branch` hash of its children with note value
`min_byte_range = left.max_byte_range`, the note value fits `u64`, leaves
under the left child end no later than the note value, and leaves under
the right child end strictly later — except that the right child itself
may be a final zero-length leaf. -/
def goodTree : Node → Prop
  | .leaf i d _ _ => i.length = 32 ∧ d.length = 32
  | .branch i mn mx l r =>
      i = hash_all_sha256 [l.id, r.id, to_note_vec mn] ∧
      mn = l.max_byte_range ∧ mx = r.max_byte_range ∧ mn < 2 ^ 64 ∧
      (∀ u ∈ l.leafList, u.max_byte_range ≤ mn) ∧
      (∀ u ∈ r.leafList, mn < u.max_byte_range ∨ r = u) ∧
      goodTree l ∧ goodTree r

theorem goodTree_id_length (n : Node) (h : goodTree n) : n.id.length = 32 := by
  cases n with
  | leaf i d mn mx => exact h.1
  | branch i mn mx l r =>
    rw [Node.id, h.1]
    exact hash_all_sha256_length _

theorem goodTree_leaf_mem (n : Node) (h : goodTree n) :
    ∀ u ∈ n.leafList, goodTree u := by
  induction n with
  | leaf i d mn mx =>
    intro u hu
    simp [Node.leafList] at hu
    subst hu
    exact h
  | branch i mn mx l r ihl ihr =>
    intro u hu
    rcases List.mem_append.mp hu with hm | hm
    · exact ihl h.2.2.2.2.2.2.1 u hm
    · exact ihr h.2.2.2.2.2.2.2 u hm

/-- All branch records of a good tree have 32-byte child ids and a `u64`
offset. -/
theorem branchRecords_wf (n : Node) (h : goodTree n) :
    ∀ recs ∈ branchRecords n, ∀ rec ∈ recs,
      rec.left_id.length = 32 ∧ rec.right_id.length = 32 ∧
        rec.offset < 2 ^ 64 := by
  induction n with
  | leaf i d mn mx =>
    intro recs hrecs rec hrec
    simp [branchRecords] at hrecs
    subst hrecs
    simp at hrec
  | branch i mn mx l r ihl ihr =>
    intro recs hrecs rec hrec
    simp only [branchRecords, List.mem_map] at hrecs
    obtain ⟨recs0, hrecs0, hrw⟩ := hrecs
    subst hrw
    rcases List.mem_cons.mp hrec with hr0 | hr0
    · subst hr0
      exact ⟨goodTree_id_length l h.2.2.2.2.2.2.1,
        goodTree_id_length r h.2.2.2.2.2.2.2, h.2.2.2.1⟩
    · rcases List.mem_append.mp hrecs0 with hm | hm
      · exact ihl h.2.2.2.2.2.2.1 recs0 hm rec hr0
      · exact ihr h.2.2.2.2.2.2.2 recs0 hm rec hr0

/-! ### Parsing a serialised honest proof recovers its records -/

theorem to_note_vec_drop (n : Nat) :
    ((to_note_vec n).drop 24).take 8 = beBytes 8 n := by
  have h : (List.replicate (NOTE_SIZE - 8) 0).length = 24 := by
    simp [NOTE_SIZE]
  rw [to_note_vec, ← h, List.drop_left, List.take_of_length_le (by
    rw [beBytes_length])]

theorem parseBranchProof_ser (rec : BranchProofRec)
    (h1 : rec.left_id.length = 32) (h2 : rec.right_id.length = 32)
    (h3 : rec.offset < 2 ^ 64) :
    parseBranchProof (serBranchRec rec) = some rec := by
  have hlen : (serBranchRec rec).length = 96 := by
    simp [serBranchRec, h1, h2, to_note_vec_length]
  rw [parseBranchProof, if_pos (by rw [hlen]; rfl)]
  have htake : (serBranchRec rec).take 32 = rec.left_id := by
    rw [serBranchRec, List.append_assoc, ← h1, List.take_left]
  have hdrop : (serBranchRec rec).drop 32 = rec.right_id ++ to_note_vec rec.offset := by
    rw [serBranchRec, List.append_assoc, ← h1, List.drop_left]
  have htake2 : ((serBranchRec rec).drop 32).take 32 = rec.right_id := by
    rw [hdrop, ← h2, List.take_left]
  have hdrop88 : (serBranchRec rec).drop 88 = (to_note_vec rec.offset).drop 24 := by
    rw [serBranchRec, List.append_assoc]
    rw [show (88 : Nat) = 32 + 56 by rfl, ← h1, List.drop_append ..]
    rw [show (56 : Nat) = 32 + 24 by rfl, ← h2, List.drop_append ..]
  have hoff : fromBeBytes (((serBranchRec rec).drop 88).take 8) = rec.offset := by
    rw [hdrop88]
    have hsmall : ((to_note_vec rec.offset).drop 24).take 8
        = (to_note_vec rec.offset).drop 24 := by
      apply List.take_of_length_le
      simp [to_note_vec, NOTE_SIZE, beBytes_length]
    have := to_note_vec_drop rec.offset
    rw [hsmall] at this
    rw [this, List.take_of_length_le (by rw [beBytes_length]),
      fromBeBytes_beBytes 8 _ (by exact h3)]
  rw [htake, htake2, hoff]

theorem serBranchRec_length (rec : BranchProofRec)
    (h1 : rec.left_id.length = 32) (h2 : rec.right_id.length = 32) :
    (serBranchRec rec).length = 96 := by
  simp [serBranchRec, h1, h2, to_note_vec_length]

theorem serBranchRecs_length (rs : List BranchProofRec)
    (h : ∀ rec ∈ rs, rec.left_id.length = 32 ∧ rec.right_id.length = 32) :
    (serBranchRecs rs).length = 96 * rs.length := by
  induction rs with
  | nil => rfl
  | cons rec rs ih =>
    have h0 := h rec (List.mem_cons_self _ _)
    simp only [serBranchRecs, List.map_cons, List.flatten_cons, List.length_append,
      List.length_cons]
    rw [serBranchRec_length rec h0.1 h0.2]
    have hrs : (serBranchRecs rs).length = 96 * rs.length :=
      ih (fun r hr => h r (List.mem_cons_of_mem _ hr))
    simp only [serBranchRecs] at hrs
    rw [hrs]
    ring

theorem parseBranchProofs_ser (rs : List BranchProofRec)
    (h : ∀ rec ∈ rs, rec.left_id.length = 32 ∧ rec.right_id.length = 32 ∧
      rec.offset < 2 ^ 64) :
    parseBranchProofs (listChunks 96 (serBranchRecs rs)) = some rs := by
  induction rs with
  | nil => rfl
  | cons rec rs ih =>
    have h0 := h rec (List.mem_cons_self _ _)
    have hrest : ∀ r ∈ rs, r.left_id.length = 32 ∧ r.right_id.length = 32 ∧
        r.offset < 2 ^ 64 := fun r hr => h r (List.mem_cons_of_mem _ hr)
    have hser : serBranchRecs (rec :: rs) = serBranchRec rec ++ serBranchRecs rs := by
      simp [serBranchRecs]
    rw [hser, listChunks_append 96 (by norm_num) _ _
      (serBranchRec_length rec h0.1 h0.2.1)]
    simp only [parseBranchProofs]
    rw [parseBranchProof_ser rec h0.1 h0.2.1 h0.2.2, ih hrest]

theorem parseLeafProof_ser (d : List Nat) (mx : Nat) (hd : d.length = 32) :
    parseLeafProof (d ++ to_note_vec mx) = some ⟨d, fromBeBytes (beBytes 8 mx)⟩ := by
  have hlen : (d ++ to_note_vec mx).length = 64 := by
    simp [hd, to_note_vec_length]
  rw [parseLeafProof, if_pos (by rw [hlen]; rfl)]
  have htake : (d ++ to_note_vec mx).take 32 = d := by
    rw [← hd, List.take_left]
  have hdrop : (d ++ to_note_vec mx).drop 56 = (to_note_vec mx).drop 24 := by
    rw [show (56 : Nat) = 32 + 24 by rfl, ← hd, List.drop_append ..]
  have hoff : ((d ++ to_note_vec mx).drop 56).take 8 = beBytes 8 mx := by
    rw [hdrop, to_note_vec_drop]
  rw [htake, hoff]

/-! ### The branch walk of `validate_chunk` succeeds on every honest proof

On a good tree the recomputed id always matches the expected one.  The
descent may leave the true path in exactly one situation: the leaf being
validated is a zero-length leaf sitting as the direct right child of the
final branch record (its `max_byte_range` equals the branch note, so the
comparison `max_byte_range > offset` sends the walk left) — but then no
records remain, so the walk still ends in `.ok`. -/

theorem validateBranches_honest (n : Node) (hg : goodTree n) :
    ∀ L recs, (L, recs) ∈ List.zip n.leafList (branchRecords n) →
      ∃ rid, validateBranches n.id L.max_byte_range recs = .ok rid := by
  induction n with
  | leaf i d mn mx =>
    intro L recs hp
    simp [Node.leafList, branchRecords] at hp
    rw [hp.1, hp.2]
    exact ⟨i, rfl⟩
  | branch i mn mx l r ihl ihr =>
    intro L recs hp
    simp only [Node.leafList, branchRecords] at hp
    rw [List.zip_map_right,
      List.zip_append (by rw [length_branchRecords])] at hp
    rcases List.mem_map.mp hp with ⟨⟨L0, recs0⟩, hmem, heq⟩
    cases heq
    simp only [Prod.map, id_eq]
    have hid : (Node.branch i mn mx l r).id
        = hash_all_sha256 [l.id, r.id, to_note_vec
          (BranchProofRec.mk l.id r.id mn).offset] := hg.1
    simp only [validateBranches]
    rw [if_neg (not_not_intro hid.symm)]
    rcases List.mem_append.mp hmem with hm | hm
    · have hLl : L0 ∈ l.leafList := (List.of_mem_zip hm).1
      have hle : L0.max_byte_range ≤ mn := hg.2.2.2.2.1 L0 hLl
      rw [if_neg (show ¬ mn < L0.max_byte_range by omega)]
      exact ihl hg.2.2.2.2.2.2.1 L0 recs0 hm
    · have hLr : L0 ∈ r.leafList := (List.of_mem_zip hm).1
      by_cases hlt : mn < L0.max_byte_range
      · rw [if_pos (show mn < L0.max_byte_range from hlt)]
        exact ihr hg.2.2.2.2.2.2.2 L0 recs0 hm
      · rcases hg.2.2.2.2.2.1 L0 hLr with hc | hc
        · omega
        · -- the zero-length right child: the record list for it is empty
          have hm2 := hm
          rw [hc] at hm2
          obtain ⟨i2, d2, mn2, mx2, hs⟩ := mem_leafList_isLeaf r L0 hLr
          rw [hs] at hm2
          simp only [Node.leafList, branchRecords, List.zip_cons_cons,
            List.zip_nil_right, List.mem_singleton, Prod.mk.injEq] at hm2
          rw [hm2.2]
          exact ⟨_, rfl⟩

theorem zip_zipWith {α β γ : Type} (f : α → β → γ) (as : List α) (bs : List β) :
    List.zip as (List.zipWith f as bs)
      = (List.zip as bs).map (fun p => (p.1, f p.1 p.2)) := by
  induction as generalizing bs with
  | nil => simp
  | cons a as ih => cases bs <;> simp [ih]

/-- `validate_chunk` accepts every (leaf, proof) pair of a good tree when
checked against the tree's root id. -/
theorem validate_chunk_honest (n : Node) (hg : goodTree n) :
    ∀ L pr, (L, pr) ∈ List.zip n.leafList (resolve_proofs n none) →
      validate_chunk n.id L pr = some (Except.ok ()) := by
  intro L pr hp
  rw [resolve_proofs_eq, zip_zipWith] at hp
  rcases List.mem_map.mp hp with ⟨⟨L0, recs0⟩, hmem, heq⟩
  cases heq
  have hLmem : L0 ∈ n.leafList := (List.of_mem_zip hmem).1
  have hrecsmem : recs0 ∈ branchRecords n := (List.of_mem_zip hmem).2
  obtain ⟨i2, d2, mn2, mx2, hs⟩ := mem_leafList_isLeaf n L0 hLmem
  have hgood2 := goodTree_leaf_mem n hg L0 hLmem
  rw [hs] at hgood2
  have hd2 : d2.length = 32 := hgood2.2
  have hwf := branchRecords_wf n hg recs0 hrecsmem
  have hserlen : (serBranchRecs recs0).length = 96 * recs0.length :=
    serBranchRecs_length recs0 (fun rec hrec => ⟨(hwf rec hrec).1, (hwf rec hrec).2.1⟩)
  obtain ⟨rid, hrid⟩ := validateBranches_honest n hg L0 recs0 hmem
  subst hs
  simp only [Node.max_byte_range] at hrid ⊢
  simp only [leafRecordBytes]
  rw [validate_chunk]
  have hbody : ((none : Option Proof).getD ⟨0, []⟩).proof
      ++ serBranchRecs recs0 ++ (d2 ++ to_note_vec mx2)
      = serBranchRecs recs0 ++ (d2 ++ to_note_vec mx2) := by
    simp
  rw [hbody]
  have hlen : (serBranchRecs recs0 ++ (d2 ++ to_note_vec mx2)).length
      = 96 * recs0.length + 64 := by
    simp [hserlen, hd2, to_note_vec_length]
  rw [if_neg (by rw [hlen]; simp [HASH_SIZE, NOTE_SIZE])]
  have hcut : (serBranchRecs recs0 ++ (d2 ++ to_note_vec mx2)).length
      - (HASH_SIZE + NOTE_SIZE) = (serBranchRecs recs0).length := by
    rw [hlen, hserlen]
    rfl
  rw [hcut, List.take_left, List.drop_left]
  rw [show HASH_SIZE * 2 + NOTE_SIZE = 96 from rfl]
  simp only [parseBranchProofs_ser recs0 hwf, parseLeafProof_ser d2 mx2 hd2, hrid]
  rw [if_neg (by
    intro hand
    exact hand.2 rfl)]

/-! ### Layer invariants preserved by `build_layer` -/

/-- Per-node invariant of a layer element. -/
def nodeOk (n : Node) : Prop :=
  goodTree n ∧ n.leafList ≠ [] ∧
  (∃ u ∈ n.leafList, u.max_byte_range = n.max_byte_range) ∧
  (∀ u ∈ n.leafList, u.max_byte_range ≤ n.max_byte_range)

/-- Ordering between adjacent layer elements: leaves of the right element
end strictly after the left element — except in the very last pair, where
the right element may itself be the final zero-length leaf. -/
def layerChain : List Node → Prop
  | [] => True
  | [_] => True
  | [a, b] =>
      (∀ u ∈ b.leafList, a.max_byte_range < u.max_byte_range ∨ b = u)
      ∧ a.max_byte_range ≤ b.max_byte_range
  | a :: b :: c :: rest =>
      (∀ u ∈ b.leafList, a.max_byte_range < u.max_byte_range)
      ∧ layerChain (b :: c :: rest)

def layerOk (ns : List Node) : Prop :=
  (∀ n ∈ ns, nodeOk n) ∧ layerChain ns ∧
  (∀ n ∈ ns, ∀ u ∈ n.leafList, u.max_byte_range < 2 ^ 64)

theorem twoStepInduction {α : Type} {p : List α → Prop} (h0 : p []) (h1 : ∀ x, p [x])
    (h2 : ∀ x y rest, p rest → p (x :: y :: rest)) : ∀ l, p l
  | [] => h0
  | [x] => h1 x
  | x :: y :: rest => h2 x y rest (twoStepInduction h0 h1 h2 rest)

theorem layerChain_tail (a : Node) (t : List Node) (h : layerChain (a :: t)) :
    layerChain t := by
  match t with
  | [] => trivial
  | [b] => trivial
  | b :: c :: rest => exact h.2

theorem layerChain_head_pair (l r : Node) (rest : List Node)
    (h : layerChain (l :: r :: rest)) :
    ∀ u ∈ r.leafList, l.max_byte_range < u.max_byte_range ∨ r = u := by
  match rest with
  | [] => exact h.1
  | c :: rest => exact fun u hu => Or.inl (h.1 u hu)

theorem layerChain_head_le (l r : Node) (rest : List Node)
    (h : layerChain (l :: r :: rest)) (hr : nodeOk r) :
    l.max_byte_range ≤ r.max_byte_range := by
  match rest with
  | [] => exact h.2
  | c :: rest =>
    obtain ⟨u, hu, hmax⟩ := hr.2.2.1
    have := h.1 u hu
    omega

theorem layerChain_cons_of_strict (x y : Node) (t : List Node)
    (hch : layerChain (y :: t))
    (hstrict : ∀ u ∈ y.leafList, x.max_byte_range < u.max_byte_range)
    (hy : ∃ u ∈ y.leafList, u.max_byte_range = y.max_byte_range) :
    layerChain (x :: y :: t) := by
  match t with
  | [] =>
    refine ⟨fun u hu => Or.inl (hstrict u hu), ?_⟩
    obtain ⟨u, hu, hmax⟩ := hy
    have := hstrict u hu
    omega
  | c :: rest => exact ⟨hstrict, hch⟩

/-- `hash_branch` of two adjacent good layer elements is a good tree. -/
theorem hash_branch_goodTree (l r : Node) (rest : List Node)
    (hl : nodeOk l) (hr : nodeOk r) (hbd : ∀ u ∈ l.leafList, u.max_byte_range < 2 ^ 64)
    (hch : layerChain (l :: r :: rest)) :
    goodTree (hash_branch l r) := by
  refine ⟨rfl, rfl, rfl, ?_, hl.2.2.2, layerChain_head_pair l r rest hch,
    hl.1, hr.1⟩
  obtain ⟨u, hu, hmax⟩ := hl.2.2.1
  have := hbd u hu
  omega

theorem hash_branch_nodeOk (l r : Node) (rest : List Node)
    (hl : nodeOk l) (hr : nodeOk r) (hbd : ∀ u ∈ l.leafList, u.max_byte_range < 2 ^ 64)
    (hch : layerChain (l :: r :: rest)) :
    nodeOk (hash_branch l r) := by
  have hle : l.max_byte_range ≤ r.max_byte_range := layerChain_head_le l r rest hch hr
  refine ⟨hash_branch_goodTree l r rest hl hr hbd hch, ?_, ?_, ?_⟩
  · show l.leafList ++ r.leafList ≠ []
    simp [leafList_ne_nil]
  · obtain ⟨u, hu, hmax⟩ := hr.2.2.1
    exact ⟨u, List.mem_append_right _ hu, hmax⟩
  · intro u hu
    rcases List.mem_append.mp hu with hm | hm
    · have := hl.2.2.2 u hm
      show u.max_byte_range ≤ r.max_byte_range
      omega
    · exact hr.2.2.2 u hm

/-- Strictness propagates across a pair: every leaf of the branch built
from `c` and `d` ends strictly after `r` whenever the chain relates
`r`, `c`, `d` in sequence. -/
theorem strict_into_pair (r c d : Node) (rest : List Node)
    (hc : nodeOk c) (hd : nodeOk d)
    (hch : layerChain (r :: c :: d :: rest)) :
    ∀ u ∈ (hash_branch c d).leafList, r.max_byte_range < u.max_byte_range := by
  have hstrict_c : ∀ u ∈ c.leafList, r.max_byte_range < u.max_byte_range := hch.1
  have hrc : r.max_byte_range < c.max_byte_range := by
    obtain ⟨u, hu, hmax⟩ := hc.2.2.1
    have := hstrict_c u hu
    omega
  intro u hu
  rcases List.mem_append.mp hu with hm | hm
  · exact hstrict_c u hm
  · rcases layerChain_head_pair c d rest (layerChain_tail r _ hch) u hm with h | h
    · omega
    · have hcd : c.max_byte_range ≤ d.max_byte_range :=
        layerChain_head_le c d rest (layerChain_tail r _ hch) hd
      rw [← h]
      omega

/-- `build_layer` preserves the layer invariant. -/
theorem build_layer_ok : ∀ ns, layerOk ns → layerOk (build_layer ns) := by
  refine twoStepInduction ?_ ?_ ?_
  · intro _
    exact ⟨by simp [build_layer], trivial, by simp [build_layer]⟩
  · intro x h
    exact h
  · intro l r rest ih h
    obtain ⟨hok, hch, hbd⟩ := h
    have hl := hok l (by simp)
    have hr := hok r (by simp)
    have hbdl : ∀ u ∈ l.leafList, u.max_byte_range < 2 ^ 64 := hbd l (by simp)
    have hbdr : ∀ u ∈ r.leafList, u.max_byte_range < 2 ^ 64 := hbd r (by simp)
    have hrestOk : layerOk rest :=
      ⟨fun n hn => hok n (by simp [hn]),
        layerChain_tail r _ (layerChain_tail l _ hch),
        fun n hn => hbd n (by simp [hn])⟩
    have hih := ih hrestOk
    show layerOk (hash_branch l r :: build_layer rest)
    refine ⟨?_, ?_, ?_⟩
    · intro n hn
      rcases List.mem_cons.mp hn with hn | hn
      · subst hn
        exact hash_branch_nodeOk l r rest hl hr hbdl hch
      · exact hih.1 n hn
    · match rest, hih with
      | [], _ => trivial
      | [c], hih =>
        have hch2 : layerChain (r :: [c]) := layerChain_tail l _ hch
        exact ⟨hch2.1, hch2.2⟩
      | c :: d :: rest2, hih =>
        show layerChain (hash_branch l r :: hash_branch c d :: build_layer rest2)
        apply layerChain_cons_of_strict
        · exact hih.2.1
        · exact strict_into_pair r c d rest2 (hok c (by simp)) (hok d (by simp))
            (layerChain_tail l _ hch)
        · exact (hash_branch_nodeOk c d rest2 (hok c (by simp)) (hok d (by simp))
            (hbd c (by simp))
            (layerChain_tail r _ (layerChain_tail l _ hch))).2.2.1
    · intro n hn
      rcases List.mem_cons.mp hn with hn | hn
      · subst hn
        intro u hu
        rcases List.mem_append.mp hu with hm | hm
        · exact hbdl u hm
        · exact hbdr u hm
      · exact hih.2.2 n hn

theorem build_layer_leafList : ∀ ns : List Node,
    ((build_layer ns).map Node.leafList).flatten
      = (ns.map Node.leafList).flatten := by
  refine twoStepInduction rfl (fun x => rfl) ?_
  intro x y rest ih
  show ((hash_branch x y :: build_layer rest).map Node.leafList).flatten = _
  simp only [List.map_cons, List.flatten_cons, ih]
  show (x.leafList ++ y.leafList) ++ _ = _
  simp [List.append_assoc]

theorem build_layer_length : ∀ ns : List Node,
    (build_layer ns).length = (ns.length + 1) / 2 := by
  refine twoStepInduction rfl (fun x => by simp [build_layer]) ?_
  intro x y rest ih
  show (hash_branch x y :: build_layer rest).length = _
  simp only [List.length_cons, ih]
  omega

theorem gdrAux_ok (f : Nat) : ∀ ns, layerOk ns → layerOk (gdrAux f ns) := by
  induction f with
  | zero => exact fun ns h => h
  | succ f ih =>
    intro ns h
    rw [gdrAux]
    split
    · exact ih _ (build_layer_ok ns h)
    · exact h

theorem gdrAux_leafList (f : Nat) : ∀ ns : List Node,
    ((gdrAux f ns).map Node.leafList).flatten = (ns.map Node.leafList).flatten := by
  induction f with
  | zero => exact fun ns => rfl
  | succ f ih =>
    intro ns
    rw [gdrAux]
    split
    · rw [ih, build_layer_leafList]
    · rfl

theorem gdrAux_length_le (f : Nat) : ∀ ns : List Node,
    ns.length ≤ f + 1 → (gdrAux f ns).length ≤ 1 := by
  induction f with
  | zero =>
    intro ns h
    exact h
  | succ f ih =>
    intro ns h
    by_cases h1 : 1 < ns.length
    · rw [gdrAux, if_pos h1]
      apply ih
      rw [build_layer_length]
      omega
    · rw [gdrAux, if_neg h1]
      omega

/-! ### The leaf layer produced by `generate_leaves` -/

def sumLens (cs : List (List Nat)) : Nat := (cs.map List.length).sum

/-- Every chunk except possibly the final one is non-empty. -/
def initsNonempty : List (List Nat) → Prop
  | [] => True
  | [_] => True
  | c :: c2 :: rest => c ≠ [] ∧ initsNonempty (c2 :: rest)

theorem initsNonempty_of_all (cs : List (List Nat))
    (h : ∀ c ∈ cs, c ≠ []) : initsNonempty cs := by
  induction cs with
  | nil => trivial
  | cons c rest ih =>
    cases rest with
    | nil => trivial
    | cons c2 rest2 =>
      exact ⟨h c (by simp),
        ih (fun x hx => h x (List.mem_cons_of_mem _ hx))⟩

theorem lfc_length (cs : List (List Nat)) (mn : Nat) :
    (leaves_from_chunks cs mn).length = cs.length := by
  induction cs generalizing mn with
  | nil => rfl
  | cons c rest ih => simp [leaves_from_chunks, ih]

theorem lfc_append (cs cs2 : List (List Nat)) (mn : Nat) :
    leaves_from_chunks (cs ++ cs2) mn
      = leaves_from_chunks cs mn ++ leaves_from_chunks cs2 (mn + sumLens cs) := by
  induction cs generalizing mn with
  | nil => simp [leaves_from_chunks, sumLens]
  | cons c rest ih =>
    simp only [List.cons_append, leaves_from_chunks]
    have h : mn + c.length + sumLens rest = mn + sumLens (c :: rest) := by
      simp only [sumLens, List.map_cons, List.sum_cons]
      omega
    rw [show rest.append cs2 = rest ++ cs2 from rfl, ih, h]

theorem lfc_mem_shape (cs : List (List Nat)) (mn : Nat) :
    ∀ u ∈ leaves_from_chunks cs mn, ∃ c mn2, c ∈ cs ∧
      u = Node.leaf (hash_all_sha256 [sha256 c, to_note_vec (mn2 + c.length)])
        (sha256 c) mn2 (mn2 + c.length) := by
  induction cs generalizing mn with
  | nil => simp [leaves_from_chunks]
  | cons c rest ih =>
    intro u hu
    rcases List.mem_cons.mp hu with h | h
    · exact ⟨c, mn, by simp, h⟩
    · obtain ⟨c2, mn2, hc2, hu2⟩ := ih (mn + c.length) u h
      exact ⟨c2, mn2, by simp [hc2], hu2⟩

theorem lfc_max_le (cs : List (List Nat)) (mn : Nat) :
    ∀ u ∈ leaves_from_chunks cs mn,
      u.max_byte_range ≤ mn + sumLens cs := by
  induction cs generalizing mn with
  | nil => simp [leaves_from_chunks]
  | cons c rest ih =>
    intro u hu
    rcases List.mem_cons.mp hu with h | h
    · subst h
      show mn + c.length ≤ mn + sumLens (c :: rest)
      simp only [sumLens, List.map_cons, List.sum_cons]
      omega
    · have := ih (mn + c.length) u h
      simp only [sumLens, List.map_cons, List.sum_cons] at this ⊢
      omega

theorem lfc_nodeOk (cs : List (List Nat)) (mn : Nat) :
    ∀ u ∈ leaves_from_chunks cs mn, nodeOk u := by
  intro u hu
  obtain ⟨c, mn2, _, hs⟩ := lfc_mem_shape cs mn u hu
  subst hs
  exact ⟨⟨hash_all_sha256_length _, sha256_length _⟩, by simp [Node.leafList],
    ⟨_, by simp [Node.leafList], rfl⟩, by simp [Node.leafList, Node.max_byte_range]⟩

theorem lfc_chain (cs : List (List Nat)) (mn : Nat) (h : initsNonempty cs) :
    layerChain (leaves_from_chunks cs mn) := by
  induction cs generalizing mn with
  | nil => trivial
  | cons c rest ih =>
    cases rest with
    | nil => trivial
    | cons c2 rest2 =>
      cases rest2 with
      | nil =>
        show layerChain [_, _]
        constructor
        · intro u hu
          simp only [leaves_from_chunks, Node.leafList, List.mem_singleton] at hu
          exact Or.inr hu.symm
        · show mn + c.length ≤ mn + c.length + c2.length
          omega
      | cons c3 rest3 =>
        show layerChain (_ :: _ :: _)
        refine ⟨?_, ih (mn + c.length) h.2⟩
        intro u hu
        simp only [leaves_from_chunks, Node.leafList, List.mem_singleton] at hu
        subst hu
        show mn + c.length < mn + c.length + c2.length
        have hc2 : c2 ≠ [] := h.2.1
        have : 0 < c2.length := List.length_pos.mpr hc2
        omega

/-! ### Properties of `data_chunks` -/

theorem mergedChunks_all_ne (data : List Nat) :
    ∀ c ∈ mergedChunks data, c ≠ [] := by
  have hpos : 0 < MAX_CHUNK_SIZE := by norm_num [MAX_CHUNK_SIZE]
  have hdc : ∀ c ∈ listChunks MAX_CHUNK_SIZE data, c ≠ [] :=
    listChunks_ne_nil_mem _ hpos data
  rw [mergedChunks]
  split
  · next hcond =>
    intro c hc
    rcases List.mem_append.mp hc with hm | hm
    · exact hdc c (List.mem_of_mem_take hm)
    · set dc := listChunks MAX_CHUNK_SIZE data with hdcdef
      have hlt : (dc.drop (dc.length - 2)).flatten ≠ [] := by
        intro hnil
        have hlen2 : (dc.drop (dc.length - 2)).length = 2 := by
          simp only [List.length_drop]
          omega
        obtain ⟨x, hx⟩ := List.exists_mem_of_ne_nil (dc.drop (dc.length - 2))
          (by intro h0; rw [h0] at hlen2; simp at hlen2)
        exact hdc x (List.mem_of_mem_drop hx)
          (List.flatten_eq_nil_iff.mp hnil x hx)
      have hl1 : 1 ≤ (dc.drop (dc.length - 2)).flatten.length :=
        List.length_pos.mpr hlt
      have hcs : 0 < (dc.drop (dc.length - 2)).flatten.length / 2
          + (if (dc.drop (dc.length - 2)).flatten.length % 2 ≠ 0 then 1 else 0) := by
        rcases Nat.even_or_odd (dc.drop (dc.length - 2)).flatten.length with he | ho
        · obtain ⟨k, hk⟩ := he
          rw [if_neg (by omega)]
          omega
        · obtain ⟨k, hk⟩ := ho
          rw [if_pos (by omega)]
          omega
      exact listChunks_ne_nil_mem _ hcs _ c hm
  · exact hdc

theorem mergedChunks_flatten (data : List Nat) :
    (mergedChunks data).flatten = data := by
  have hpos : 0 < MAX_CHUNK_SIZE := by norm_num [MAX_CHUNK_SIZE]
  rw [mergedChunks]
  split
  · next hcond =>
    set dc := listChunks MAX_CHUNK_SIZE data with hdcdef
    set lt := (dc.drop (dc.length - 2)).flatten with hltdef
    have hltlen : lt ≠ [] → 0 < lt.length / 2
        + (if lt.length % 2 ≠ 0 then 1 else 0) := by
      intro hne
      have := List.length_pos.mpr hne
      rcases Nat.even_or_odd lt.length with he | ho
      · obtain ⟨k, hk⟩ := he
        rw [if_neg (by omega)]
        omega
      · obtain ⟨k, hk⟩ := ho
        rw [if_pos (by omega)]
        omega
    have hflat : (listChunks (lt.length / 2
        + (if lt.length % 2 ≠ 0 then 1 else 0)) lt).flatten = lt := by
      by_cases hne : lt = []
      · rw [hne]
        rfl
      · exact flatten_listChunks _ (hltlen hne) lt
    rw [List.flatten_append, hflat, hltdef, ← List.flatten_append,
      List.take_append_drop]
    exact flatten_listChunks _ hpos data
  · exact flatten_listChunks _ hpos data

theorem data_chunks_flatten (data : List Nat) :
    (data_chunks data).flatten = data := by
  rw [data_chunks]
  split
  · rw [List.flatten_append, mergedChunks_flatten]
    simp
  · exact mergedChunks_flatten data

theorem data_chunks_initsNonempty (data : List Nat) :
    initsNonempty (data_chunks data) := by
  rw [data_chunks]
  split
  · -- append one empty chunk after all-nonempty chunks
    have hall := mergedChunks_all_ne data
    generalize mergedChunks data = mc at hall ⊢
    induction mc with
    | nil => trivial
    | cons c rest ih =>
      cases rest with
      | nil => exact ⟨hall c (by simp), trivial⟩
      | cons c2 rest2 =>
        exact ⟨hall c (by simp),
          ih (fun x hx => hall x (List.mem_cons_of_mem _ hx))⟩
  · exact initsNonempty_of_all _ (mergedChunks_all_ne data)

theorem data_chunks_ne_nil (data : List Nat) (hne : data ≠ []) :
    data_chunks data ≠ [] := by
  intro h0
  have := data_chunks_flatten data
  rw [h0] at this
  exact hne this.symm

theorem data_chunks_sumLens (data : List Nat) :
    sumLens (data_chunks data) = data.length := by
  rw [sumLens, ← List.length_flatten, data_chunks_flatten]

theorem flatten_map_leafList (ls : List Node)
    (h : ∀ u ∈ ls, ∃ i d a b, u = Node.leaf i d a b) :
    (ls.map Node.leafList).flatten = ls := by
  induction ls with
  | nil => rfl
  | cons u rest ih =>
    obtain ⟨i, d, a, b, hu⟩ := h u (by simp)
    simp only [List.map_cons, List.flatten_cons,
      ih (fun x hx => h x (List.mem_cons_of_mem _ hx))]
    rw [hu]
    rfl

/-- The leaf layer of a non-empty payload satisfies the layer invariant. -/
theorem generate_leaves_layerOk (data : List Nat) (hne : data ≠ [])
    (hlen : data.length < 2 ^ 64) (leaves : List Node)
    (hl : generate_leaves data = some leaves) :
    layerOk leaves ∧ (leaves.map Node.leafList).flatten = leaves
      ∧ leaves ≠ [] := by
  have hl2 : leaves = leaves_from_chunks (data_chunks data) 0 := by
    rw [generate_leaves] at hl
    rw [if_neg (by simpa using hne)] at hl
    exact (Option.some.injEq _ _ ▸ hl).symm
  subst hl2
  have hshape := lfc_mem_shape (data_chunks data) 0
  have hleafshape : ∀ u ∈ leaves_from_chunks (data_chunks data) 0,
      ∃ i d a b, u = Node.leaf i d a b := by
    intro u hu
    obtain ⟨c, mn2, _, hs⟩ := hshape u hu
    exact ⟨_, _, _, _, hs⟩
  refine ⟨⟨fun n hn => lfc_nodeOk _ _ n hn,
    lfc_chain _ _ (data_chunks_initsNonempty data), ?_⟩,
    flatten_map_leafList _ hleafshape, ?_⟩
  · intro n hn u hu
    obtain ⟨i, d, a, b, hs⟩ := hleafshape n hn
    subst hs
    simp only [Node.leafList, List.mem_singleton] at hu
    subst hu
    have := lfc_max_le (data_chunks data) 0 _ hn
    rw [data_chunks_sumLens] at this
    omega
  · intro h0
    have := lfc_length (data_chunks data) 0
    rw [h0] at this
    exact data_chunks_ne_nil data hne (List.length_eq_zero.mp this.symm)

/-- The root built by `generate_data_root` over the leaves of a non-empty
payload is a good tree whose leaf list is exactly the leaf layer. -/
theorem generate_root_good (data : List Nat) (hne : data ≠ [])
    (hlen : data.length < 2 ^ 64) (leaves : List Node) (root : Node)
    (hl : generate_leaves data = some leaves)
    (hr : generate_data_root leaves = some root) :
    goodTree root ∧ root.leafList = leaves := by
  obtain ⟨hok, hflat, hlne⟩ := generate_leaves_layerOk data hne hlen leaves hl
  have hfin := gdrAux_ok leaves.length leaves hok
  have hfinflat := gdrAux_leafList leaves.length leaves
  have hfinlen : (gdrAux leaves.length leaves).length ≤ 1 :=
    gdrAux_length_le leaves.length leaves (by omega)
  rw [generate_data_root] at hr
  match hfl : gdrAux leaves.length leaves, hr with
  | [root2], hr =>
    have hroot : root2 = root := by
      simpa using hr
    subst hroot
    rw [hfl] at hfin hfinflat
    refine ⟨(hfin.1 root2 (by simp)).1, ?_⟩
    simp only [List.map_cons, List.map_nil, List.flatten_cons, List.flatten_nil,
      List.append_nil] at hfinflat
    rw [hfinflat, hflat]
  | x :: y :: t, hr =>
    rw [hfl] at hfinlen
    simp at hfinlen
  | [], hr =>
    simp at hr

/-- `resolve_proofs` produces exactly one proof per leaf. -/
theorem resolve_proofs_length (n : Node) :
    (resolve_proofs n none).length = n.leafList.length := by
  rw [resolve_proofs_eq, List.length_zipWith, length_branchRecords]
  simp

/-- C1: for every non-empty payload, `resolve_proofs` on the root built by
`generate_leaves` → `generate_data_root` yields exactly one proof per leaf
in left-to-right leaf order, and `validate_chunk(root.id, leaf_i, proof_i)`
returns `Ok(())` for every leaf index.  (The hypothesis
`data.length < 2 ^ 64` reflects the `usize` size bound of the Rust
payload.) -/
theorem generate_and_validate_roundtrip (data : List Nat) (hne : data ≠ [])
    (hlen : data.length < 2 ^ 64) (leaves : List Node) (root : Node)
    (hl : generate_leaves data = some leaves)
    (hr : generate_data_root leaves = some root) :
    (resolve_proofs root none).length = leaves.length ∧
    ∀ p ∈ List.zip leaves (resolve_proofs root none),
      validate_chunk root.id p.1 p.2 = some (Except.ok ()) := by
  obtain ⟨hg, hlv⟩ := generate_root_good data hne hlen leaves root hl hr
  constructor
  · rw [resolve_proofs_length, hlv]
  · intro p hp
    rw [← hlv] at hp
    exact validate_chunk_honest root hg p.1 p.2 (by simpa using hp)

theorem generate_and_validate_roundtrip_witness :
    ∃ leaves root,
      generate_leaves [0] = some leaves ∧ generate_data_root leaves = some root ∧
      (resolve_proofs root none).length = leaves.length ∧
      ∀ p ∈ List.zip leaves (resolve_proofs root none),
        validate_chunk root.id p.1 p.2 = some (Except.ok ()) :=
  ⟨_, _, rfl, rfl,
    (generate_and_validate_roundtrip [0] (by decide) (by norm_num) _ _ rfl rfl).1,
    (generate_and_validate_roundtrip [0] (by decide) (by norm_num) _ _ rfl rfl).2⟩

/-! ## C2 — the leaf check of `validate_chunk` uses `&&` where the spec
(and the code's own comment, "Validate leaf: both id and data_hash are
correct") demands that either mismatch fail.  A proof whose leaf record
carries the chunk's true `data_hash` is accepted against an arbitrary
wrong root id, because the error branch requires BOTH comparisons to
fail. -/

/-- C2: the code violates the claim: with root id `0x00…00` — which is not
the recomputed leaf id — and a leaf record whose embedded `data_hash`
matches the chunk's, `validate_chunk` returns `Ok(())` instead of
`Err(InvalidProof)`.  (`id != root_id && data_hash != leaf_proof.data_hash`
is false because the second conjunct is false.) -/
theorem validate_chunk_leaf_and_bug :
    validate_chunk (List.replicate 32 0)
      (Node.leaf (List.replicate 32 0) (List.replicate 32 7) 0 1)
      ⟨0, List.replicate 32 7 ++ to_note_vec 1⟩ = some (Except.ok ()) ∧
    hash_all_sha256 [List.replicate 32 7, to_note_vec 1]
      ≠ List.replicate 32 0 := by
  constructor
  · rfl
  · decide

/-! ## C3 — tampering with proof bytes that the verifier never recomputes
is accepted.  For the one-byte payload `[0]`, the honest single proof is
`data_hash[32] ++ note[32]`; changing the final note byte (or a byte of
the embedded data hash, which the buggy `&&` renders unchecked) leaves
`validate_chunk` returning `Ok(())`. -/

def c3data : List Nat := [0]

def c3leaf : Node := ((generate_leaves c3data).getD []).getD 0 (Node.leaf [] [] 0 0)

def c3root : Node :=
  (generate_data_root ((generate_leaves c3data).getD [])).getD (Node.leaf [] [] 0 0)

def c3proof : Proof := (resolve_proofs c3root none).getD 0 ⟨0, []⟩

/-- The honest proof with its final byte changed from `1` to `2`. -/
def c3tamperedNote : Proof := ⟨c3proof.offset, c3proof.proof.dropLast ++ [2]⟩

/-- The honest proof with its first byte (part of the embedded data hash)
incremented mod 256. -/
def c3tamperedHash : Proof :=
  ⟨c3proof.offset,
    ((c3proof.proof.getD 0 0 + 1) % 256) :: c3proof.proof.drop 1⟩

/-- C3: the code violates the claim: both single-byte changes to the proof
of the payload `[0]` — the last byte of the leaf-record note, and a byte
of the embedded data hash — are still accepted by `validate_chunk`
against the original root id, although the claim requires both to make
validation fail.  (The honest proof is accepted too, and the tampered
proofs genuinely differ from it.) -/
theorem validate_chunk_accepts_tampered_proof :
    validate_chunk c3root.id c3leaf c3proof = some (Except.ok ()) ∧
    c3tamperedNote.proof ≠ c3proof.proof ∧
    c3tamperedNote.proof.length = c3proof.proof.length ∧
    validate_chunk c3root.id c3leaf c3tamperedNote = some (Except.ok ()) ∧
    c3tamperedHash.proof ≠ c3proof.proof ∧
    c3tamperedHash.proof.length = c3proof.proof.length ∧
    validate_chunk c3root.id c3leaf c3tamperedHash = some (Except.ok ()) := by
  refine ⟨rfl, by decide, by decide, rfl, by decide, by decide, rfl⟩

/-! ## C4 — a malformed proof does not produce `Err(InvalidProof)`: it
panics.  `validate_chunk` computes `proof.len() - HASH_SIZE - NOTE_SIZE`,
which underflows `usize` for proofs shorter than 64 bytes, and
`try_from_proof_slice` calls `.unwrap()` on the borsh result, which
panics on a branch region that is not a multiple of 96 bytes.  Both are
modelled as `none`. -/

/-- C4: the code violates the claim: a 0-byte proof (underflowing
`split_at`) and a 100-byte proof (36-byte branch region, not 96) both
make `validate_chunk` panic (`none`) rather than return
`Err(InvalidProof)`. -/
theorem validate_chunk_malformed_panics :
    validate_chunk (List.replicate 32 0)
      (Node.leaf (List.replicate 32 0) (List.replicate 32 7) 0 1)
      ⟨0, []⟩ = none ∧
    validate_chunk (List.replicate 32 0)
      (Node.leaf (List.replicate 32 0) (List.replicate 32 7) 0 1)
      ⟨0, List.replicate 100 0⟩ = none := ⟨rfl, rfl⟩

/-! ## C5 — `hash_branch` id and span.  The id and `max_byte_range` are as
the spec says and the branch owns both children, but `min_byte_range` is
set to `left.max_byte_range`, not `left.min_byte_range`. -/

def Node.left_child : Node → Option Node
  | .leaf _ _ _ _ => none
  | .branch _ _ _ l _ => some l

def Node.right_child : Node → Option Node
  | .leaf _ _ _ _ => none
  | .branch _ _ _ _ r => some r

/-- C5 counterexample: for concrete children spanning `[0,5)` and `[5,9)`,
the branch's `min_byte_range` is `5 = left.max_byte_range`, not
`0 = left.min_byte_range` as claimed. -/
theorem hash_branch_min_not_left_min :
    (hash_branch (Node.leaf [] [] 0 5) (Node.leaf [] [] 5 9)).min_byte_range
      ≠ (Node.leaf [] [] 0 5).min_byte_range := by
  decide

/-- C5 (amended): `hash_branch(left, right)` returns a node whose id is
`SHA-256(SHA-256(left.id) ++ SHA-256(right.id) ++ SHA-256(note(left.max_byte_range)))`
with `note` the 32-byte left-zero-padded big-endian encoding, whose
`min_byte_range` is `left.max_byte_range` (not `left.min_byte_range`),
whose `max_byte_range` is `right.max_byte_range`, and which owns both
children. -/
theorem hash_branch_spec (left right : Node) :
    (hash_branch left right).id
      = sha256 (sha256 left.id ++ (sha256 right.id
        ++ sha256 (List.replicate 24 0 ++ beBytes 8 left.max_byte_range))) ∧
    (hash_branch left right).min_byte_range = left.max_byte_range ∧
    (hash_branch left right).max_byte_range = right.max_byte_range ∧
    (hash_branch left right).left_child = some left ∧
    (hash_branch left right).right_child = some right := by
  refine ⟨?_, rfl, rfl, rfl, rfl⟩
  show hash_all_sha256 [left.id, right.id, to_note_vec left.max_byte_range] = _
  simp [hash_all_sha256, to_note_vec, NOTE_SIZE]

/-! ## C6 / C7 / C10 — chunk-list arithmetic -/

theorem getLast?_mem {α : Type} (l : List α) (a : α) (h : l.getLast? = some a) :
    a ∈ l := by
  obtain ⟨ys, hys⟩ := List.getLast?_eq_some_iff.mp h
  subst hys
  simp

/-- Splitting a payload of exactly `N × n` bytes gives `N` chunks of `n`
bytes each. -/
theorem listChunks_exact (n : Nat) (hn : 0 < n) :
    ∀ (N : Nat) (data : List Nat), data.length = N * n →
      (listChunks n data).length = N ∧
        ∀ c ∈ listChunks n data, c.length = n := by
  intro N
  induction N with
  | zero =>
    intro data h
    have hd : data = [] := List.length_eq_zero.mp (by omega)
    subst hd
    simp [listChunks_nil]
  | succ N ih =>
    intro data h
    have hne : data ≠ [] := by
      intro h0
      subst h0
      simp at h
      omega
    rw [listChunks_cons_eq n hn data hne]
    have hge : n ≤ data.length := by
      have : N * n + n = (N + 1) * n := by ring
      omega
    have htl : (data.take n).length = n := by
      rw [List.length_take]
      omega
    have hdl : (data.drop n).length = N * n := by
      simp only [List.length_drop]
      have : (N + 1) * n = N * n + n := by ring
      omega
    obtain ⟨hl, hall⟩ := ih (data.drop n) hdl
    refine ⟨by simp [hl], ?_⟩
    intro c hc
    rcases List.mem_cons.mp hc with hc | hc
    · subst hc
      exact htl
    · exact hall c hc

/-- The length of the final chunk of `listChunks`. -/
theorem listChunks_getLast_length (n : Nat) (hn : 0 < n) (data : List Nat) :
    data ≠ [] → ∃ c, (listChunks n data).getLast? = some c ∧
      c.length = (if data.length % n = 0 then n else data.length % n) := by
  induction data using listChunks_fuel_ind n hn with
  | hnil => intro h; simp at h
  | hstep l hne ih =>
    intro _
    rw [listChunks_cons_eq n hn l hne]
    by_cases hdr : l.drop n = []
    · have hlen : l.length ≤ n := by
        have := List.length_drop n l
        rw [hdr] at this
        simp at this
        omega
      have hpos : 0 < l.length := List.length_pos.mpr hne
      rw [hdr, listChunks_nil]
      refine ⟨l.take n, rfl, ?_⟩
      rw [List.take_of_length_le hlen]
      by_cases he : l.length % n = 0
      · have : l.length = n := by
          rcases Nat.lt_or_ge l.length n with hlt | hge
          · rw [Nat.mod_eq_of_lt hlt] at he
            omega
          · omega
        rw [if_pos he, this]
      · rw [if_neg he, Nat.mod_eq_of_lt (by
          rcases Nat.lt_or_ge l.length n with hlt | hge
          · exact hlt
          · have : l.length = n := by omega
            rw [this] at he
            simp at he)]
    · have hgt : n < l.length := by
        have := List.length_drop n l
        have hp : 0 < (l.drop n).length := List.length_pos.mpr hdr
        omega
      obtain ⟨c, hc, hclen⟩ := ih hdr
      refine ⟨c, ?_, ?_⟩
      · rw [show l.take n :: listChunks n (l.drop n)
            = [l.take n] ++ listChunks n (l.drop n) from rfl,
          List.getLast?_append, hc]
        rfl
      · rw [hclen]
        have hmod : (l.drop n).length % n = l.length % n := by
          rw [List.length_drop]
          exact (Nat.mod_eq_sub_mod (le_of_lt hgt)).symm
        rw [hmod]

/-- `leaves_from_chunks` on non-empty chunks gives non-degenerate leaves. -/
theorem lfc_pos (cs : List (List Nat)) (mn : Nat)
    (h : ∀ c ∈ cs, c ≠ []) :
    ∀ u ∈ leaves_from_chunks cs mn,
      u.min_byte_range < u.max_byte_range := by
  intro u hu
  obtain ⟨c, mn2, hc, hs⟩ := lfc_mem_shape cs mn u hu
  subst hs
  show mn2 < mn2 + c.length
  have := List.length_pos.mpr (h c hc)
  omega

/-- First leaf of `leaves_from_chunks` starts at the running offset. -/
theorem lfc_head (cs : List (List Nat)) (mn : Nat) (h : cs ≠ []) :
    ∃ a, (leaves_from_chunks cs mn)[0]? = some a ∧ a.min_byte_range = mn := by
  match cs with
  | c :: rest =>
    refine ⟨Node.leaf (hash_all_sha256 [sha256 c, to_note_vec (mn + c.length)])
      (sha256 c) mn (mn + c.length), ?_, rfl⟩
    simp [leaves_from_chunks]

/-- Last leaf of `leaves_from_chunks`: its byte range is determined by the
final chunk. -/
theorem lfc_getLast (cs : List (List Nat)) (mn : Nat) (h : cs ≠ []) :
    ∃ z c, cs.getLast? = some c ∧
      (leaves_from_chunks cs mn).getLast? = some z ∧
      z.min_byte_range + c.length = mn + sumLens cs ∧
      z.max_byte_range = mn + sumLens cs := by
  induction cs generalizing mn with
  | nil => simp at h
  | cons c rest ih =>
    cases rest with
    | nil =>
      refine ⟨_, c, rfl, rfl, ?_, ?_⟩
      · show mn + c.length = mn + sumLens [c]
        simp [sumLens]
      · show mn + c.length = mn + sumLens [c]
        simp [sumLens]
    | cons c2 rest2 =>
      obtain ⟨z, clast, hcl, hzl, hmin, hmax⟩ := ih (mn + c.length) (by simp)
      refine ⟨z, clast, ?_, ?_, ?_, ?_⟩
      · rw [List.getLast?_cons_cons]
        exact hcl
      · show (Node.leaf _ _ mn (mn + c.length)
            :: leaves_from_chunks (c2 :: rest2) (mn + c.length)).getLast? = some z
        rw [← List.singleton_append, List.getLast?_append, hzl]
        rfl
      · have hs : sumLens (c :: c2 :: rest2) = c.length + sumLens (c2 :: rest2) := by
          simp [sumLens]
        omega
      · have hs : sumLens (c :: c2 :: rest2) = c.length + sumLens (c2 :: rest2) := by
          simp [sumLens]
        omega

/-- Adjacent leaves are contiguous. -/
theorem lfc_contig (cs : List (List Nat)) (mn i : Nat)
    (hi : i + 1 < cs.length) :
    ∃ a b, (leaves_from_chunks cs mn)[i]? = some a ∧
      (leaves_from_chunks cs mn)[i + 1]? = some b ∧
      a.max_byte_range = b.min_byte_range := by
  induction cs generalizing mn i with
  | nil => simp at hi
  | cons c rest ih =>
    cases i with
    | zero =>
      have hrest : rest ≠ [] := by
        intro h0
        subst h0
        simp at hi
      obtain ⟨b, hb, hbmin⟩ := lfc_head rest (mn + c.length) hrest
      refine ⟨Node.leaf (hash_all_sha256 [sha256 c, to_note_vec (mn + c.length)])
        (sha256 c) mn (mn + c.length), b, ?_, ?_, hbmin.symm⟩
      · simp [leaves_from_chunks]
      · simp only [leaves_from_chunks, List.getElem?_cons_succ]
        exact hb
    | succ i =>
      obtain ⟨a, b, ha, hb, hab⟩ := ih (mn + c.length) i (by simp at hi; omega)
      refine ⟨a, b, ?_, ?_, hab⟩
      · simp only [leaves_from_chunks, List.getElem?_cons_succ]
        exact ha
      · simp only [leaves_from_chunks, List.getElem?_cons_succ]
        exact hb

/-- Slicing the payload at each leaf's byte range recovers the chunks. -/
theorem lfc_slices (cs : List (List Nat)) (pre rest2 data : List Nat)
    (hdata : data = pre ++ cs.flatten ++ rest2) :
    (leaves_from_chunks cs pre.length).map
      (fun L => (data.drop L.min_byte_range).take
        (L.max_byte_range - L.min_byte_range)) = cs := by
  induction cs generalizing pre with
  | nil => rfl
  | cons c rest ih =>
    simp only [leaves_from_chunks, List.map_cons, List.cons.injEq]
    constructor
    · show (data.drop pre.length).take (pre.length + c.length - pre.length) = c
      rw [show pre.length + c.length - pre.length = c.length by omega, hdata,
        List.append_assoc, List.drop_left, List.flatten_cons, List.append_assoc]
      exact List.take_left c _
    · have hpre : (pre ++ c).length = pre.length + c.length := by simp
      rw [← hpre]
      apply ih
      rw [hdata]
      simp [List.append_assoc]

theorem exists_getLast {α : Type} (l : List α) (h : l ≠ []) :
    ∃ a, l.getLast? = some a ∧ a ∈ l := by
  have hpos : 0 < l.length := List.length_pos.mpr h
  rw [List.getLast?_eq_getElem?, List.getElem?_eq_getElem (by omega)]
  exact ⟨_, rfl, List.getElem_mem _⟩

theorem sumLens_const (cs : List (List Nat)) (m : Nat)
    (h : ∀ c ∈ cs, c.length = m) : sumLens cs = cs.length * m := by
  induction cs with
  | nil => simp [sumLens]
  | cons c rest ih =>
    simp only [sumLens, List.map_cons, List.sum_cons, List.length_cons]
    rw [h c (by simp)]
    have := ih (fun x hx => h x (List.mem_cons_of_mem _ hx))
    simp only [sumLens] at this
    rw [this]
    ring

theorem generate_leaves_eq (data : List Nat) (hne : data ≠ []) :
    generate_leaves data = some (leaves_from_chunks (data_chunks data) 0) := by
  rw [generate_leaves, if_neg (by simpa using hne)]

/-- For a payload of exactly `N × MAX_CHUNK_SIZE` bytes, no merge happens
and one empty chunk is appended. -/
theorem data_chunks_mod_zero (N : Nat) (data : List Nat) (h1 : 1 ≤ N)
    (h : data.length = N * MAX_CHUNK_SIZE) :
    data_chunks data = listChunks MAX_CHUNK_SIZE data ++ [[]] ∧
    (listChunks MAX_CHUNK_SIZE data).length = N ∧
    (∀ c ∈ listChunks MAX_CHUNK_SIZE data, c.length = MAX_CHUNK_SIZE) := by
  have hpos : 0 < MAX_CHUNK_SIZE := by norm_num [MAX_CHUNK_SIZE]
  obtain ⟨hlen, hall⟩ := listChunks_exact MAX_CHUNK_SIZE hpos N data h
  have hne : data ≠ [] := by
    intro h0
    subst h0
    simp at h
    have : 0 < N * MAX_CHUNK_SIZE := by positivity
    omega
  obtain ⟨cl, hcl, hclmem⟩ := exists_getLast (listChunks MAX_CHUNK_SIZE data)
    (by intro h0; rw [h0] at hlen; simp at hlen; omega)
  have hcllen : cl.length = MAX_CHUNK_SIZE := hall cl hclmem
  have hmc : mergedChunks data = listChunks MAX_CHUNK_SIZE data := by
    rw [mergedChunks]
    rw [if_neg]
    intro hcond
    rw [List.getLastD_eq_getLast?, hcl] at hcond
    simp only [Option.getD_some] at hcond
    rw [hcllen] at hcond
    have := hcond.2
    norm_num [MAX_CHUNK_SIZE, MIN_CHUNK_SIZE] at this
  refine ⟨?_, hlen, hall⟩
  rw [data_chunks, hmc, if_pos]
  rw [List.getLastD_eq_getLast?, hcl]
  simpa using hcllen

/-- In the merge case the final merged chunk is non-empty and strictly
shorter than `MAX_CHUNK_SIZE`. -/
theorem mergedChunks_merge_case (data : List Nat)
    (hk : 1 < (listChunks MAX_CHUNK_SIZE data).length)
    (hsmall : ((listChunks MAX_CHUNK_SIZE data).getLastD []).length
      < MIN_CHUNK_SIZE) :
    ∃ c2, (mergedChunks data).getLast? = some c2 ∧ c2 ≠ []
      ∧ c2.length < MAX_CHUNK_SIZE := by
  have hpos : 0 < MAX_CHUNK_SIZE := by norm_num [MAX_CHUNK_SIZE]
  obtain ⟨cl, hcl, hclmem⟩ := exists_getLast (listChunks MAX_CHUNK_SIZE data)
    (by intro h0; rw [h0] at hk; simp at hk)
  have hgld : (listChunks MAX_CHUNK_SIZE data).getLastD [] = cl := by
    rw [List.getLastD_eq_getLast?, hcl]
    rfl
  rw [hgld] at hsmall
  set dc := listChunks MAX_CHUNK_SIZE data with hdc
  have h2 : dc.length - 2 < dc.length := by omega
  have h1v : dc.length - 1 < dc.length := by omega
  have hdrop : dc.drop (dc.length - 2) = [dc[dc.length - 2], dc[dc.length - 1]] := by
    rw [List.drop_eq_getElem_cons h2, show dc.length - 2 + 1 = dc.length - 1 by omega,
      List.drop_eq_getElem_cons h1v, show dc.length - 1 + 1 = dc.length by omega,
      List.drop_length]
  have hlast_eq : dc[dc.length - 1] = cl := by
    have h0 := hcl
    rw [List.getLast?_eq_getElem?, List.getElem?_eq_getElem h1v] at h0
    simpa using h0
  have haMAX : dc[dc.length - 2].length ≤ MAX_CHUNK_SIZE :=
    listChunks_length_le MAX_CHUNK_SIZE hpos data _ (List.getElem_mem h2)
  have hltlen : ((dc.drop (dc.length - 2)).flatten).length
      = dc[dc.length - 2].length + cl.length := by
    rw [hdrop]
    simp [hlast_eq]
  simp only [mergedChunks]
  rw [if_pos ⟨hk, by rw [hgld]; exact hsmall⟩]
  set lt := (dc.drop (dc.length - 2)).flatten with hlt
  set cs := lt.length / 2 + (if lt.length % 2 ≠ 0 then 1 else 0) with hcs
  have hltbound : lt.length < MAX_CHUNK_SIZE + MIN_CHUNK_SIZE := by
    rw [hltlen]
    omega
  have hcsMAX : cs < MAX_CHUNK_SIZE := by
    rw [hcs]
    have h1 : lt.length / 2 ≤ (MAX_CHUNK_SIZE + MIN_CHUNK_SIZE) / 2 :=
      Nat.div_le_div_right (by omega)
    norm_num [MAX_CHUNK_SIZE, MIN_CHUNK_SIZE] at h1 ⊢
    split <;> omega
  have hcspos : 0 < cs := by
    have hltpos : 0 < lt.length := by
      rw [hltlen]
      have : cl ≠ [] := listChunks_ne_nil_mem MAX_CHUNK_SIZE hpos data cl hclmem
      have := List.length_pos.mpr this
      omega
    rw [hcs]
    rcases Nat.even_or_odd lt.length with he | ho
    · obtain ⟨m, hm⟩ := he
      rw [if_neg (by omega)]
      omega
    · obtain ⟨m, hm⟩ := ho
      rw [if_pos (by omega)]
      omega
  have hltne : lt ≠ [] := by
    intro h0
    have h4 : lt.length = 0 := by rw [h0]; rfl
    rw [hltlen] at h4
    have : cl ≠ [] := listChunks_ne_nil_mem MAX_CHUNK_SIZE hpos data cl hclmem
    have h3 := List.length_pos.mpr this
    omega
  have hchne : listChunks cs lt ≠ [] := by
    rw [listChunks_cons_eq cs hcspos lt hltne]
    simp
  obtain ⟨c2, hc2, hc2mem⟩ := exists_getLast (listChunks cs lt) hchne
  refine ⟨c2, ?_, listChunks_ne_nil_mem cs hcspos lt c2 hc2mem, ?_⟩
  · rw [List.getLast?_append, hc2]
    rfl
  · have := listChunks_length_le cs hcspos lt c2 hc2mem
    omega

/-- For a payload whose length is not a multiple of `MAX_CHUNK_SIZE`, no
empty chunk is appended and the final chunk is non-empty. -/
theorem data_chunks_last_ne (data : List Nat) (hne : data ≠ [])
    (hmod : data.length % MAX_CHUNK_SIZE ≠ 0) :
    data_chunks data = mergedChunks data ∧
    ∃ c, (data_chunks data).getLast? = some c ∧ c ≠ [] := by
  have hpos : 0 < MAX_CHUNK_SIZE := by norm_num [MAX_CHUNK_SIZE]
  obtain ⟨cl, hcl, hcllen⟩ := listChunks_getLast_length MAX_CHUNK_SIZE hpos data hne
  rw [if_neg hmod] at hcllen
  have hclpos : 0 < cl.length := by
    rw [hcllen]
    exact Nat.pos_of_ne_zero hmod
  have hclmax : cl.length < MAX_CHUNK_SIZE := by
    rw [hcllen]
    exact Nat.mod_lt _ hpos
  have hgld : (listChunks MAX_CHUNK_SIZE data).getLastD [] = cl := by
    rw [List.getLastD_eq_getLast?, hcl]
    rfl
  by_cases hcond : 1 < (listChunks MAX_CHUNK_SIZE data).length ∧
      ((listChunks MAX_CHUNK_SIZE data).getLastD []).length < MIN_CHUNK_SIZE
  · obtain ⟨c2, hc2, hc2ne, hc2max⟩ :=
      mergedChunks_merge_case data hcond.1 hcond.2
    have happend : ¬ ((mergedChunks data).getLastD []).length
        = MAX_CHUNK_SIZE := by
      rw [List.getLastD_eq_getLast?, hc2]
      simp only [Option.getD_some]
      omega
    refine ⟨by rw [data_chunks, if_neg happend], ?_⟩
    rw [data_chunks, if_neg happend]
    exact ⟨c2, hc2, hc2ne⟩
  · have hmerged : mergedChunks data = listChunks MAX_CHUNK_SIZE data := by
      rw [mergedChunks, if_neg hcond]
    have happend : ¬ ((mergedChunks data).getLastD []).length
        = MAX_CHUNK_SIZE := by
      rw [hmerged, hgld]
      omega
    refine ⟨by rw [data_chunks, if_neg happend], ?_⟩
    rw [data_chunks, if_neg happend, hmerged]
    exact ⟨cl, hcl, by intro h0; rw [h0] at hclpos; simp at hclpos⟩

theorem sumLens_append (a b : List (List Nat)) :
    sumLens (a ++ b) = sumLens a + sumLens b := by
  simp [sumLens]

/-- C6: `generate_leaves` splits into `MAX_CHUNK_SIZE`-byte chunks with the
merge and zero-append rules: a payload of exactly `N × 262144` bytes
(`N ≥ 1`) yields `N + 1` leaves whose last has `min_byte_range =
max_byte_range = N × 262144` (the appended zero-length chunk), and a
payload of `262144 + 1` bytes is merged and re-split into two ceil-divided
halves of `131073` and `131072` bytes. -/
theorem generate_leaves_chunking :
    (∀ (N : Nat) (data : List Nat), 1 ≤ N → data.length = N * MAX_CHUNK_SIZE →
      ∃ leaves, generate_leaves data = some leaves ∧ leaves.length = N + 1 ∧
        ∃ z, leaves.getLast? = some z ∧
          z.min_byte_range = N * MAX_CHUNK_SIZE ∧
          z.max_byte_range = N * MAX_CHUNK_SIZE) ∧
    (∀ data : List Nat, data.length = MAX_CHUNK_SIZE + 1 →
      ∃ L0 L1, generate_leaves data = some [L0, L1] ∧
        L0.min_byte_range = 0 ∧ L0.max_byte_range = 131073 ∧
        L1.min_byte_range = 131073 ∧ L1.max_byte_range = 262145) := by
  constructor
  · intro N data h1 h
    have hMpos : (0 : Nat) < MAX_CHUNK_SIZE := by norm_num [MAX_CHUNK_SIZE]
    have hne : data ≠ [] := by
      intro h0
      subst h0
      simp at h
      have : 0 < N * MAX_CHUNK_SIZE := by positivity
      omega
    obtain ⟨hdc, hlenN, hall⟩ := data_chunks_mod_zero N data h1 h
    refine ⟨_, generate_leaves_eq data hne, ?_, ?_⟩
    · rw [lfc_length, hdc]
      simp [hlenN]
    · obtain ⟨z, c, hc, hz, hzmin, hzmax⟩ :=
        lfc_getLast (data_chunks data) 0 (data_chunks_ne_nil data hne)
      have hcnil : c = [] := by
        rw [hdc, List.getLast?_append] at hc
        simp at hc
        exact hc
      have hsum : sumLens (data_chunks data) = N * MAX_CHUNK_SIZE := by
        rw [hdc, sumLens_append, sumLens_const _ MAX_CHUNK_SIZE hall, hlenN]
        simp [sumLens]
      refine ⟨z, hz, ?_, ?_⟩
      · rw [hcnil] at hzmin
        simp at hzmin
        rw [hzmin, hsum]
      · rw [hzmax, hsum]
        omega
  · intro data h
    have hMpos : (0 : Nat) < MAX_CHUNK_SIZE := by norm_num [MAX_CHUNK_SIZE]
    have hne : data ≠ [] := by
      intro h0
      subst h0
      simp [MAX_CHUNK_SIZE] at h
    have hd1 : data.drop MAX_CHUNK_SIZE ≠ [] := by
      intro h0
      have h2 := List.length_drop MAX_CHUNK_SIZE data
      rw [h0] at h2
      simp at h2
      omega
    have hsplit : listChunks MAX_CHUNK_SIZE data
        = [data.take MAX_CHUNK_SIZE, data.drop MAX_CHUNK_SIZE] := by
      rw [listChunks_cons_eq _ hMpos data hne, listChunks_single _ _ hd1 (by
        simp only [List.length_drop, h]
        omega)]
    have hdroplen : (data.drop MAX_CHUNK_SIZE).length = 1 := by
      simp [h]
    have hcond : 1 < (listChunks MAX_CHUNK_SIZE data).length ∧
        ((listChunks MAX_CHUNK_SIZE data).getLastD []).length
          < MIN_CHUNK_SIZE := by
      rw [hsplit]
      constructor
      · simp
      · simp only [List.getLastD_eq_getLast?, List.getLast?_cons_cons]
        simp [hdroplen, MIN_CHUNK_SIZE]
    have httd : data.take MAX_CHUNK_SIZE ++ data.drop MAX_CHUNK_SIZE = data :=
      List.take_append_drop _ _
    have hmerged : mergedChunks data = listChunks 131073 data := by
      simp only [mergedChunks]
      rw [if_pos hcond, hsplit]
      simp only [List.length_cons, List.length_nil]
      norm_num
      rw [h]
      norm_num [MAX_CHUNK_SIZE]
    have hd2 : data.drop 131073 ≠ [] := by
      intro h0
      have h2 := List.length_drop 131073 data
      rw [h0] at h2
      simp at h2
      norm_num [MAX_CHUNK_SIZE] at h
      omega
    have hsplit2 : listChunks 131073 data
        = [data.take 131073, data.drop 131073] := by
      rw [listChunks_cons_eq _ (by norm_num) data hne, listChunks_single _ _ hd2 (by
        simp only [List.length_drop, h]
        norm_num [MAX_CHUNK_SIZE])]
    have hdrop2len : (data.drop 131073).length = 131072 := by
      simp only [List.length_drop, h]
      norm_num [MAX_CHUNK_SIZE]
    have htake2len : (data.take 131073).length = 131073 := by
      simp only [List.length_take, h]
      norm_num [MAX_CHUNK_SIZE]
    have hdcfinal : data_chunks data = [data.take 131073, data.drop 131073] := by
      rw [data_chunks, hmerged, hsplit2, if_neg]
      simp only [List.getLastD_eq_getLast?, List.getLast?_cons_cons]
      simp [hdrop2len, MAX_CHUNK_SIZE]
    refine ⟨Node.leaf
        (hash_all_sha256 [sha256 (data.take 131073),
          to_note_vec (0 + (data.take 131073).length)])
        (sha256 (data.take 131073)) 0 (0 + (data.take 131073).length),
      Node.leaf
        (hash_all_sha256 [sha256 (data.drop 131073),
          to_note_vec (0 + (data.take 131073).length + (data.drop 131073).length)])
        (sha256 (data.drop 131073)) (0 + (data.take 131073).length)
        (0 + (data.take 131073).length + (data.drop 131073).length),
      ?_, rfl, ?_, ?_, ?_⟩
    · rw [generate_leaves_eq data hne, hdcfinal]
      rfl
    · show 0 + (data.take 131073).length = 131073
      simp [htake2len]
    · show 0 + (data.take 131073).length = 131073
      simp [htake2len]
    · show 0 + (data.take 131073).length + (data.drop 131073).length = 262145
      simp [htake2len, hdrop2len]

/-- `generate_data_root` succeeds on any non-empty node list. -/
theorem generate_data_root_isSome (ns : List Node) (hne : ns ≠ []) :
    ∃ r, generate_data_root ns = some r := by
  have hlen : ∀ f (ms : List Node), ms ≠ [] → gdrAux f ms ≠ [] := by
    intro f
    induction f with
    | zero => exact fun ms h => h
    | succ f ih =>
      intro ms h
      rw [gdrAux]
      split
      · apply ih
        intro h0
        have := build_layer_length ms
        rw [h0] at this
        simp at this
        omega
      · exact h
  have h2 := hlen ns.length ns hne
  match hm : gdrAux ns.length ns with
  | [] => exact absurd hm h2
  | r :: t =>
    refine ⟨r, ?_⟩
    rw [generate_data_root, hm]
    rfl

/-- The leaf list of the generated root is the generated leaf layer
(no size bound needed). -/
theorem generate_root_leafList (data : List Nat) (hne : data ≠ [])
    (leaves : List Node) (root : Node)
    (hl : generate_leaves data = some leaves)
    (hr : generate_data_root leaves = some root) :
    root.leafList = leaves := by
  have hl2 : leaves = leaves_from_chunks (data_chunks data) 0 := by
    rw [generate_leaves_eq data hne] at hl
    exact (Option.some.inj hl).symm
  have hleafshape : ∀ u ∈ leaves, ∃ i d a b, u = Node.leaf i d a b := by
    intro u hu
    rw [hl2] at hu
    obtain ⟨c, mn2, _, hs⟩ := lfc_mem_shape (data_chunks data) 0 u hu
    exact ⟨_, _, _, _, hs⟩
  have hflat : (leaves.map Node.leafList).flatten = leaves :=
    flatten_map_leafList _ hleafshape
  have hlne : leaves ≠ [] := by
    intro h0
    have := lfc_length (data_chunks data) 0
    rw [← hl2, h0] at this
    exact data_chunks_ne_nil data hne (List.length_eq_zero.mp this.symm)
  have hfinflat := gdrAux_leafList leaves.length leaves
  have hfinlen : (gdrAux leaves.length leaves).length ≤ 1 :=
    gdrAux_length_le leaves.length leaves (by omega)
  rw [generate_data_root] at hr
  match hfl : gdrAux leaves.length leaves, hr with
  | [root2], hr =>
    have hroot : root2 = root := by simpa using hr
    subst hroot
    rw [hfl] at hfinflat
    simp only [List.map_cons, List.map_nil, List.flatten_cons, List.flatten_nil,
      List.append_nil] at hfinflat
    rw [hfinflat, hflat]
  | x :: y :: t, hr =>
    rw [hfl] at hfinlen
    simp at hfinlen
  | [], hr => simp at hr

/-- Unfolding `Tx.generate_merkle` for non-empty data. -/
theorem generate_merkle_eq (data : List Nat) (hne : data ≠ [])
    (leaves : List Node) (root : Node) (z : Node)
    (hl : generate_leaves data = some leaves)
    (hr : generate_data_root leaves = some root)
    (hz : leaves.getLast? = some z) :
    Tx.generate_merkle data = some
      { Tx.default with
        format := 2
        data_size := data.length
        data := data
        data_root := root.id
        chunks := (if z.max_byte_range = z.min_byte_range
          then leaves.dropLast else leaves)
        proofs := (if z.max_byte_range = z.min_byte_range
          then (resolve_proofs root none).dropLast
          else resolve_proofs root none) } := by
  rw [Tx.generate_merkle, if_neg (by simp [hne])]
  simp only [hl, hr, hz]
  by_cases hcase : z.max_byte_range = z.min_byte_range
  · rw [if_pos hcase, if_pos hcase, if_pos hcase]
  · rw [if_neg hcase, if_neg hcase, if_neg hcase]

/-- The last generated leaf is degenerate exactly when the payload length
is a multiple of `MAX_CHUNK_SIZE`. -/
theorem leaves_last_zero_iff (data : List Nat) (hne : data ≠ [])
    (leaves : List Node) (hl : generate_leaves data = some leaves) :
    ∃ z, leaves.getLast? = some z ∧
      (z.max_byte_range = z.min_byte_range ↔
        data.length % MAX_CHUNK_SIZE = 0) := by
  have hl2 : leaves = leaves_from_chunks (data_chunks data) 0 := by
    rw [generate_leaves_eq data hne] at hl
    exact (Option.some.inj hl).symm
  subst hl2
  obtain ⟨z, c, hc, hz, hzmin, hzmax⟩ :=
    lfc_getLast (data_chunks data) 0 (data_chunks_ne_nil data hne)
  refine ⟨z, hz, ?_, ?_⟩
  · intro heq
    by_contra hmod
    obtain ⟨-, c2, hc2, hc2ne⟩ := data_chunks_last_ne data hne hmod
    rw [hc] at hc2
    have hcc : c2 = c := Option.some.inj hc2.symm
    subst hcc
    have : c2.length = 0 := by omega
    exact hc2ne (List.length_eq_zero.mp this)
  · intro hmod
    have hN1 : 1 ≤ data.length / MAX_CHUNK_SIZE := by
      have hpos : 0 < data.length := List.length_pos.mpr hne
      have hMpos : (0 : Nat) < MAX_CHUNK_SIZE := by norm_num [MAX_CHUNK_SIZE]
      rcases Nat.lt_or_ge data.length MAX_CHUNK_SIZE with hlt | hge
      · rw [Nat.mod_eq_of_lt hlt] at hmod
        omega
      · exact Nat.one_le_div_iff hMpos |>.mpr hge
    have hNlen : data.length = (data.length / MAX_CHUNK_SIZE) * MAX_CHUNK_SIZE := by
      rw [Nat.div_mul_cancel (Nat.dvd_of_mod_eq_zero hmod)]
    obtain ⟨hdc, hlen, hall⟩ :=
      data_chunks_mod_zero (data.length / MAX_CHUNK_SIZE) data hN1 hNlen
    have hcnil : c = [] := by
      rw [hdc, List.getLast?_append] at hc
      simp at hc
      exact hc
    rw [hcnil] at hzmin
    simp at hzmin
    omega

/-- C10: `Tx::generate_merkle` pops the trailing zero-length chunk and its
proof exactly when the data length is a multiple of `262144`; `data_root`
is always the root id of the full tree (including the zero-length leaf);
chunks and proofs always have equal length; and every kept chunk is
non-empty. -/
theorem generate_merkle_discards_zero_chunk (data : List Nat)
    (hne : data ≠ []) (leaves : List Node) (root : Node) (tx : Tx)
    (hl : generate_leaves data = some leaves)
    (hr : generate_data_root leaves = some root)
    (ht : Tx.generate_merkle data = some tx) :
    tx.data_root = root.id ∧ tx.chunks.length = tx.proofs.length ∧
    (data.length % MAX_CHUNK_SIZE = 0 →
      tx.chunks = leaves.dropLast ∧
      tx.proofs = (resolve_proofs root none).dropLast) ∧
    (data.length % MAX_CHUNK_SIZE ≠ 0 →
      tx.chunks = leaves ∧ tx.proofs = resolve_proofs root none) ∧
    (∀ c ∈ tx.chunks, c.min_byte_range < c.max_byte_range) := by
  obtain ⟨z, hz, hziff⟩ := leaves_last_zero_iff data hne leaves hl
  have hteq := generate_merkle_eq data hne leaves root z hl hr hz
  rw [ht] at hteq
  have htx := Option.some.inj hteq
  subst htx
  have hlenfull : leaves.length = (resolve_proofs root none).length := by
    rw [resolve_proofs_length, generate_root_leafList data hne leaves root hl hr]
  have hl2 : leaves = leaves_from_chunks (data_chunks data) 0 := by
    rw [generate_leaves_eq data hne] at hl
    exact (Option.some.inj hl).symm
  refine ⟨rfl, ?_, ?_, ?_, ?_⟩
  · show (if z.max_byte_range = z.min_byte_range
        then leaves.dropLast else leaves).length = _
    by_cases hcase : z.max_byte_range = z.min_byte_range
    · rw [if_pos hcase, if_pos hcase]
      simp [hlenfull]
    · rw [if_neg hcase, if_neg hcase]
      exact hlenfull
  · intro hmod
    have hcase : z.max_byte_range = z.min_byte_range := hziff.mpr hmod
    constructor
    · show (if z.max_byte_range = z.min_byte_range
          then leaves.dropLast else leaves) = leaves.dropLast
      rw [if_pos hcase]
    · show (if z.max_byte_range = z.min_byte_range
          then (resolve_proofs root none).dropLast
          else resolve_proofs root none) = _
      rw [if_pos hcase]
  · intro hmod
    have hcase : ¬ z.max_byte_range = z.min_byte_range := by
      intro h0
      exact hmod (hziff.mp h0)
    constructor
    · show (if z.max_byte_range = z.min_byte_range
          then leaves.dropLast else leaves) = leaves
      rw [if_neg hcase]
    · show (if z.max_byte_range = z.min_byte_range
          then (resolve_proofs root none).dropLast
          else resolve_proofs root none) = _
      rw [if_neg hcase]
  · intro c hc
    show c.min_byte_range < c.max_byte_range
    have hc2 : c ∈ (if z.max_byte_range = z.min_byte_range
        then leaves.dropLast else leaves) := hc
    by_cases hcase : z.max_byte_range = z.min_byte_range
    · rw [if_pos hcase] at hc2
      have hmod := hziff.mp hcase
      have hN1 : 1 ≤ data.length / MAX_CHUNK_SIZE := by
        have hpos : 0 < data.length := List.length_pos.mpr hne
        have hMpos : (0 : Nat) < MAX_CHUNK_SIZE := by norm_num [MAX_CHUNK_SIZE]
        rcases Nat.lt_or_ge data.length MAX_CHUNK_SIZE with hlt | hge
        · rw [Nat.mod_eq_of_lt hlt] at hmod
          omega
        · exact Nat.one_le_div_iff hMpos |>.mpr hge
      have hNlen : data.length
          = (data.length / MAX_CHUNK_SIZE) * MAX_CHUNK_SIZE := by
        rw [Nat.div_mul_cancel (Nat.dvd_of_mod_eq_zero hmod)]
      obtain ⟨hdc, hlen, hall⟩ :=
        data_chunks_mod_zero (data.length / MAX_CHUNK_SIZE) data hN1 hNlen
      have hsplitlfc : leaves
          = leaves_from_chunks (listChunks MAX_CHUNK_SIZE data) 0
            ++ leaves_from_chunks [[]]
              (0 + sumLens (listChunks MAX_CHUNK_SIZE data)) := by
        rw [hl2, hdc, lfc_append]
      have hdl : leaves.dropLast
          = leaves_from_chunks (listChunks MAX_CHUNK_SIZE data) 0 := by
        rw [hsplitlfc]
        show (_ ++ [Node.leaf _ _ _ _]).dropLast = _
        rw [List.dropLast_concat]
      rw [hdl] at hc2
      exact lfc_pos _ _ (fun ch hch => by
        have := hall ch hch
        intro h0
        rw [h0] at this
        simp at this
        norm_num [MAX_CHUNK_SIZE] at this) c hc2
    · rw [if_neg hcase] at hc2
      have hmod : data.length % MAX_CHUNK_SIZE ≠ 0 := by
        intro h0
        exact hcase (hziff.mpr h0)
      obtain ⟨hdceq, -⟩ := data_chunks_last_ne data hne hmod
      rw [hl2, hdceq] at hc2
      exact lfc_pos _ _ (mergedChunks_all_ne data) c hc2

theorem generate_merkle_discards_zero_chunk_witness :
    ∃ leaves root tx,
      generate_leaves [0] = some leaves ∧
      generate_data_root leaves = some root ∧
      Tx.generate_merkle [0] = some tx ∧
      (tx.data_root = root.id ∧ tx.chunks.length = tx.proofs.length ∧
      (([0] : List Nat).length % MAX_CHUNK_SIZE = 0 →
        tx.chunks = leaves.dropLast ∧
        tx.proofs = (resolve_proofs root none).dropLast) ∧
      (([0] : List Nat).length % MAX_CHUNK_SIZE ≠ 0 →
        tx.chunks = leaves ∧ tx.proofs = resolve_proofs root none) ∧
      (∀ c ∈ tx.chunks, c.min_byte_range < c.max_byte_range)) :=
  ⟨_, _, _, rfl, rfl, rfl,
    generate_merkle_discards_zero_chunk [0] (by decide) _ _ _ rfl rfl rfl⟩

/-- C7: the leaves of `generate_leaves` tile the payload: the first leaf
starts at 0, adjacent leaves are contiguous, the last leaf ends at
`data.length`, concatenating the slices `data[min_byte_range ..
max_byte_range)` in leaf order reproduces the payload exactly, and
`Tx::get_chunk` returns exactly those bytes for each stored chunk. -/
theorem split_reassembles_payload (data : List Nat) (hne : data ≠ [])
    (leaves : List Node) (hl : generate_leaves data = some leaves) :
    (∃ a, leaves[0]? = some a ∧ a.min_byte_range = 0) ∧
    (∀ i, i + 1 < leaves.length → ∃ a b, leaves[i]? = some a ∧
      leaves[i + 1]? = some b ∧ a.max_byte_range = b.min_byte_range) ∧
    (∃ z, leaves.getLast? = some z ∧ z.max_byte_range = data.length) ∧
    (leaves.map (fun L => (data.drop L.min_byte_range).take
      (L.max_byte_range - L.min_byte_range))).flatten = data ∧
    (∀ tx, Tx.generate_merkle data = some tx →
      ∀ idx, idx < tx.chunks.length →
        ∃ L pr, tx.chunks[idx]? = some L ∧ tx.proofs[idx]? = some pr ∧
          Tx.get_chunk tx idx = some ⟨tx.data_root, tx.data_size, pr.proof,
            pr.offset, (data.drop L.min_byte_range).take
              (L.max_byte_range - L.min_byte_range)⟩) := by
  have hl2 : leaves = leaves_from_chunks (data_chunks data) 0 := by
    rw [generate_leaves_eq data hne] at hl
    exact (Option.some.inj hl).symm
  have hdcne := data_chunks_ne_nil data hne
  have hlenlv : leaves.length = (data_chunks data).length := by
    rw [hl2, lfc_length]
  have hlne : leaves ≠ [] := by
    intro h0
    rw [h0] at hlenlv
    exact hdcne (List.length_eq_zero.mp hlenlv.symm)
  have hslices : leaves.map (fun L => (data.drop L.min_byte_range).take
      (L.max_byte_range - L.min_byte_range)) = data_chunks data := by
    have := lfc_slices (data_chunks data) [] [] data
      (by rw [data_chunks_flatten]; simp)
    simp only [List.length_nil] at this
    rw [hl2]
    exact this
  refine ⟨?_, ?_, ?_, ?_, ?_⟩
  · rw [hl2]
    exact lfc_head _ _ hdcne
  · intro i hi
    rw [hl2]
    rw [hlenlv] at hi
    exact lfc_contig _ _ i hi
  · obtain ⟨z, c, hc, hz, hzmin, hzmax⟩ := lfc_getLast (data_chunks data) 0 hdcne
    refine ⟨z, by rw [hl2]; exact hz, ?_⟩
    rw [hzmax, data_chunks_sumLens]
    omega
  · rw [hslices, data_chunks_flatten]
  · intro tx ht idx hidx
    obtain ⟨z, hz, hzmem⟩ := exists_getLast leaves hlne
    obtain ⟨root, hr⟩ := generate_data_root_isSome leaves hlne
    have hteq := generate_merkle_eq data hne leaves root z hl hr hz
    rw [ht] at hteq
    have htx := Option.some.inj hteq
    subst htx
    have hlenfull : leaves.length = (resolve_proofs root none).length := by
      rw [resolve_proofs_length, generate_root_leafList data hne leaves root hl hr]
    -- reduce the chunk / proof lookups to lookups in the full lists
    have hchunks : ∀ j, j < (if z.max_byte_range = z.min_byte_range
        then leaves.dropLast else leaves).length →
        (if z.max_byte_range = z.min_byte_range
          then leaves.dropLast else leaves)[j]? = leaves[j]? ∧
        (if z.max_byte_range = z.min_byte_range
          then (resolve_proofs root none).dropLast
          else resolve_proofs root none)[j]?
          = (resolve_proofs root none)[j]? ∧ j < leaves.length := by
      intro j hj
      by_cases hcase : z.max_byte_range = z.min_byte_range
      · rw [if_pos hcase] at hj ⊢
        rw [if_pos hcase]
        rw [List.length_dropLast] at hj
        refine ⟨?_, ?_, by omega⟩
        · rw [List.getElem?_dropLast, if_pos (by omega)]
        · rw [List.getElem?_dropLast, if_pos (by omega)]
      · rw [if_neg hcase] at hj ⊢
        rw [if_neg hcase]
        exact ⟨rfl, rfl, hj⟩
    obtain ⟨hcj, hpj, hjlt⟩ := hchunks idx hidx
    have hL : ∃ L, leaves[idx]? = some L :=
      ⟨leaves.get ⟨idx, hjlt⟩, List.getElem?_eq_getElem hjlt⟩
    obtain ⟨L, hLeq⟩ := hL
    have hpr : ∃ pr, (resolve_proofs root none)[idx]? = some pr := by
      have : idx < (resolve_proofs root none).length := by omega
      exact ⟨_, List.getElem?_eq_getElem this⟩
    obtain ⟨pr, hpreq⟩ := hpr
    have hLmem : L ∈ leaves := by
      rw [List.getElem?_eq_some] at hLeq
      obtain ⟨hh, hLeq2⟩ := hLeq
      rw [← hLeq2]
      exact List.getElem_mem hh
    have hLminmax : L.min_byte_range ≤ L.max_byte_range
        ∧ L.max_byte_range ≤ data.length := by
      rw [hl2] at hLmem
      obtain ⟨c, mn2, hc, hs⟩ := lfc_mem_shape _ _ L hLmem
      constructor
      · rw [hs]
        show mn2 ≤ mn2 + c.length
        omega
      · have := lfc_max_le _ _ L hLmem
        rw [data_chunks_sumLens] at this
        omega
    refine ⟨L, pr, by rw [hcj]; exact hLeq, by rw [hpj]; exact hpreq, ?_⟩
    rw [Tx.get_chunk]
    show (match (if z.max_byte_range = z.min_byte_range
        then (resolve_proofs root none).dropLast
        else resolve_proofs root none)[idx]?,
        (if z.max_byte_range = z.min_byte_range
          then leaves.dropLast else leaves)[idx]? with
      | some proof, some chunk => _ | _, _ => none) = _
    rw [hcj, hpj, hLeq, hpreq]
    simp only []
    rw [if_pos ⟨hLminmax.1, hLminmax.2⟩]

theorem split_reassembles_payload_witness :
    ∃ leaves, generate_leaves [0] = some leaves ∧
      ((∃ a, leaves[0]? = some a ∧ a.min_byte_range = 0) ∧
      (∀ i, i + 1 < leaves.length → ∃ a b, leaves[i]? = some a ∧
        leaves[i + 1]? = some b ∧ a.max_byte_range = b.min_byte_range) ∧
      (∃ z, leaves.getLast? = some z ∧ z.max_byte_range = ([0] : List Nat).length) ∧
      (leaves.map (fun L => (([0] : List Nat).drop L.min_byte_range).take
        (L.max_byte_range - L.min_byte_range))).flatten = [0] ∧
      (∀ tx, Tx.generate_merkle [0] = some tx →
        ∀ idx, idx < tx.chunks.length →
          ∃ L pr, tx.chunks[idx]? = some L ∧ tx.proofs[idx]? = some pr ∧
            Tx.get_chunk tx idx = some ⟨tx.data_root, tx.data_size, pr.proof,
              pr.offset, (([0] : List Nat).drop L.min_byte_range).take
                (L.max_byte_range - L.min_byte_range)⟩)) :=
  ⟨_, rfl, split_reassembles_payload [0] (by decide) _ rfl⟩

theorem generate_leaves_chunking_witness :
    (∃ leaves, generate_leaves (List.replicate (2 * MAX_CHUNK_SIZE) 0)
        = some leaves ∧ leaves.length = 2 + 1 ∧
      ∃ z, leaves.getLast? = some z ∧
        z.min_byte_range = 2 * MAX_CHUNK_SIZE ∧
        z.max_byte_range = 2 * MAX_CHUNK_SIZE) ∧
    (∃ L0 L1, generate_leaves (List.replicate (MAX_CHUNK_SIZE + 1) 0)
        = some [L0, L1] ∧
      L0.min_byte_range = 0 ∧ L0.max_byte_range = 131073 ∧
      L1.min_byte_range = 131073 ∧ L1.max_byte_range = 262145) :=
  ⟨generate_leaves_chunking.1 2 (List.replicate (2 * MAX_CHUNK_SIZE) 0)
      (by norm_num) (by rw [List.length_replicate]),
    generate_leaves_chunking.2 (List.replicate (MAX_CHUNK_SIZE + 1) 0)
      (by rw [List.length_replicate])⟩

/-! ## C8 — `index_chunks` on a transaction whose size is an exact multiple
of `CHUNK_SIZE`.  The loop `while file_offset < size + 1 && file_offset +
CHUNK_SIZE < size` stops one full window early and the trailing window is
built with `size % CHUNK_SIZE`, which is `0`; for `size = CHUNK_SIZE` the
whole index is a single zero-size window, covering none of the
transaction's bytes. -/

/-- C8: the code violates the claim at `size = CHUNK_SIZE` (262144): the
window list is a single degenerate window of size 0 at offset 0, the
window sizes sum to 0 rather than to `size`, so the bytes
`[start_offset, start_offset + 262144)` are covered by no window. -/
theorem index_chunks_degenerate_on_multiple :
    index_chunks 0 CHUNK_SIZE = [⟨0, 0, 0⟩] ∧
    ((index_chunks 0 CHUNK_SIZE).map DataChunk.size).sum = 0 ∧
    ((index_chunks 0 CHUNK_SIZE).map DataChunk.size).sum ≠ CHUNK_SIZE := by
  refine ⟨rfl, rfl, by decide⟩

/-! ## C9 — the worker step of `find_nodes` -/

theorem cacheContains_map_replace (c : PeerCache) (k k2 : String)
    (v : PeerProcessingStatus) :
    cacheContains (c.map (fun e => if e.1 = k then (k, v) else e)) k2
      = cacheContains c k2 := by
  induction c with
  | nil => rfl
  | cons e rest ih =>
    simp only [List.map_cons, cacheContains, List.any_cons] at *
    rw [ih]
    by_cases he : e.1 = k
    · rw [if_pos he]
      simp [he]
    · rw [if_neg he]

theorem cacheContains_insert (cache : PeerCache) (k k2 : String)
    (v : PeerProcessingStatus) :
    cacheContains (cacheInsert cache k v) k2
      = (cacheContains cache k2 || decide (k2 = k)) := by
  rw [cacheInsert]
  split
  · next hk =>
    rw [cacheContains_map_replace]
    by_cases hk2 : k2 = k
    · subst hk2
      simp [hk]
    · simp [hk2]
  · next hk =>
    simp only [cacheContains, List.any_append, List.any_cons, List.any_nil]
    have hdd : (decide ((k, v).1 = k2)) = decide (k2 = k) := by
      simp only [decide_eq_decide]
      exact eq_comm
    rw [hdd]
    simp

theorem cacheLookup_map_replace (c : PeerCache) (k k2 : String)
    (v : PeerProcessingStatus) (h : k2 ≠ k) :
    cacheLookup (c.map (fun e => if e.1 = k then (k, v) else e)) k2
      = cacheLookup c k2 := by
  induction c with
  | nil => rfl
  | cons e rest ih =>
    simp only [List.map_cons, cacheLookup, List.find?_cons] at ih ⊢
    by_cases he : e.1 = k
    · rw [if_pos he]
      rw [show (decide ((k, v).1 = k2)) = false by
        simp only [decide_eq_false_iff_not]
        exact fun hh => h hh.symm]
      rw [show (decide (e.1 = k2)) = false by
        simp only [decide_eq_false_iff_not]
        exact fun hh => h (hh.symm.trans he)]
      exact ih
    · rw [if_neg he]
      by_cases he2 : e.1 = k2
      · rw [show (decide (e.1 = k2)) = true by simp [he2]]
      · rw [show (decide (e.1 = k2)) = false by simp [he2]]
        exact ih

theorem cacheLookup_insert_self (c : PeerCache) (k : String)
    (v : PeerProcessingStatus) :
    cacheLookup (cacheInsert c k v) k = some v := by
  rw [cacheInsert]
  split
  · next hk =>
    induction c with
    | nil => simp [cacheContains] at hk
    | cons e rest ih =>
      simp only [cacheContains, List.any_cons, Bool.or_eq_true] at hk
      simp only [List.map_cons, cacheLookup, List.find?_cons]
      by_cases he : e.1 = k
      · rw [if_pos he]
        simp
      · rw [if_neg he]
        have h2 : (decide (e.1 = k)) = false := by simp [he]
        rw [h2]
        rcases hk with hk | hk
        · simp [he] at hk
        · exact ih hk
  · next hk =>
    have hnone : c.find? (fun e => decide (e.1 = k)) = none := by
      rw [List.find?_eq_none]
      intro x hx
      simp only [decide_eq_true_eq]
      intro hxk
      apply hk
      rw [cacheContains, List.any_eq_true]
      exact ⟨x, hx, by simp [hxk]⟩
    rw [cacheLookup, List.find?_append]
    rw [show (fun (e : String × PeerProcessingStatus) => decide (e.1 = k))
        = fun e => decide (e.1 = k) from rfl] at hnone
    rw [hnone]
    simp

theorem cacheLookup_insert_other (c : PeerCache) (k k2 : String)
    (v : PeerProcessingStatus) (h : k2 ≠ k) :
    cacheLookup (cacheInsert c k v) k2 = cacheLookup c k2 := by
  rw [cacheInsert]
  split
  · exact cacheLookup_map_replace c k k2 v h
  · rw [cacheLookup, List.find?_append, cacheLookup]
    have h2 : List.find? (fun e => decide (e.1 = k2)) [(k, v)] = none := by
      simp
      exact fun hh => h hh.symm
    rw [h2]
    cases c.find? (fun e => decide (e.1 = k2)) <;> rfl

theorem foldl_insert_lookup_other (l : List (String × Nat)) (c : PeerCache)
    (p : String) (h : ∀ q ∈ l, q.1 ≠ p) :
    cacheLookup (l.foldl (fun c pd => cacheInsert c pd.1 .Pending) c) p
      = cacheLookup c p := by
  induction l generalizing c with
  | nil => rfl
  | cons q rest ih =>
    simp only [List.foldl_cons]
    rw [ih _ (fun x hx => h x (List.mem_cons_of_mem _ hx)),
      cacheLookup_insert_other _ _ _ _ (fun hh => h q (by simp) hh.symm)]

theorem foldl_insert_lookup_mem (l : List (String × Nat)) (c : PeerCache)
    (p : String) (h : p ∈ l.map Prod.fst) :
    cacheLookup (l.foldl (fun c pd => cacheInsert c pd.1 .Pending) c) p
      = some .Pending := by
  induction l generalizing c with
  | nil => simp at h
  | cons q rest ih =>
    simp only [List.foldl_cons]
    by_cases hmem : p ∈ rest.map Prod.fst
    · exact ih _ hmem
    · have hq : q.1 = p := by
        simp only [List.map_cons, List.mem_cons] at h
        rcases h with h | h
        · exact h.symm
        · exact absurd h hmem
      rw [foldl_insert_lookup_other rest _ p (by
        intro x hx hxp
        exact hmem (by rw [← hxp]; exact List.mem_map_of_mem _ hx))]
      rw [hq]
      exact cacheLookup_insert_self c p .Pending

/-- C9: the worker step of `find_nodes`.  On a successful peer-list
response the probed node is marked `Ok`; only when `depth < max_depth`,
every returned address not already in the cache is inserted as `Pending`
and enqueued with depth `depth + 1`; addresses already cached are never
enqueued; at maximal depth nothing is inserted or enqueued; on a failed
response the node is marked `Failed` and nothing is enqueued. -/
theorem find_nodes_step_spec (max_depth : Nat) (cache : PeerCache)
    (node : String) (depth : Nat)
    (hnode : cacheContains cache node = true) :
    (∀ peers : List String, ∃ cache2 enq,
      find_nodes_step max_depth cache node depth (.ok peers)
        = some (cache2, enq) ∧
      cacheLookup cache2 node = some .Ok ∧
      (¬ depth < max_depth → enq = [] ∧ cache2 = cacheInsert cache node .Ok) ∧
      (∀ p d, (p, d) ∈ enq → d = depth + 1 ∧ p ∈ peers ∧
        cacheContains cache p = false ∧
        cacheLookup cache2 p = some .Pending) ∧
      (∀ p ∈ peers, depth < max_depth → cacheContains cache p = false →
        (p, depth + 1) ∈ enq)) ∧
    (∃ cache2, find_nodes_step max_depth cache node depth (.error ())
        = some (cache2, []) ∧
      cacheLookup cache2 node = some .Failed) := by
  have hupdOk : cacheUpdate cache node PeerProcessingStatus.Ok
      = some (cacheInsert cache node .Ok) := by
    rw [cacheUpdate, if_pos hnode]
  have hupdFail : cacheUpdate cache node PeerProcessingStatus.Failed
      = some (cacheInsert cache node .Failed) := by
    rw [cacheUpdate, if_pos hnode]
  have hcontains1 : ∀ p, cacheContains (cacheInsert cache node .Ok) p
      = (cacheContains cache p || decide (p = node)) :=
    fun p => cacheContains_insert cache node p .Ok
  constructor
  · intro peers
    rw [find_nodes_step]
    simp only [hupdOk]
    by_cases hd : depth < max_depth
    · rw [if_pos hd]
      set new_nodes := (peers.filter
        (fun peer => ¬ cacheContains (cacheInsert cache node .Ok) peer)).map
        (fun node => (node, depth + 1)) with hnn
      refine ⟨_, _, rfl, ?_, ?_, ?_, ?_⟩
      · rw [foldl_insert_lookup_other]
        · exact cacheLookup_insert_self cache node .Ok
        · intro q hq hqnode
          rw [hnn] at hq
          rcases List.mem_map.mp hq with ⟨p0, hp0, hp0eq⟩
          have hp0filter := (List.mem_filter.mp hp0).2
          simp only [decide_eq_true_eq] at hp0filter
          apply hp0filter
          rw [show p0 = node from by rw [← hqnode, ← hp0eq]]
          rw [hcontains1 node, hnode]
          simp
      · intro hnd
        exact absurd hd hnd
      · intro p d hpd
        rw [hnn] at hpd
        rcases List.mem_map.mp hpd with ⟨p0, hp0, hp0eq⟩
        have hp01 : p = p0 := (congrArg Prod.fst hp0eq).symm
        have hd1 : d = depth + 1 := (congrArg Prod.snd hp0eq).symm
        subst hp01
        have hpmem := (List.mem_filter.mp hp0).1
        have hpfil := (List.mem_filter.mp hp0).2
        simp only [decide_eq_true_eq] at hpfil
        have hpc : cacheContains cache p = false := by
          by_contra hcon
          apply hpfil
          rw [hcontains1 p]
          simp at hcon
          simp [hcon]
        refine ⟨hd1, hpmem, hpc, ?_⟩
        apply foldl_insert_lookup_mem
        rw [hnn]
        rw [List.map_map]
        apply List.mem_map.mpr
        exact ⟨p, hp0, rfl⟩
      · intro p hp hd2 hpc
        rw [hnn]
        apply List.mem_map.mpr
        refine ⟨p, ?_, rfl⟩
        apply List.mem_filter.mpr
        refine ⟨hp, ?_⟩
        simp only [decide_eq_true_eq]
        intro hcon
        rw [hcontains1 p, hpc] at hcon
        simp at hcon
        subst hcon
        rw [hnode] at hpc
        exact Bool.true_eq_false.mp hpc
    · rw [if_neg hd]
      refine ⟨_, _, rfl, cacheLookup_insert_self cache node .Ok,
        fun _ => ⟨rfl, rfl⟩, ?_, ?_⟩
      · intro p d hpd
        simp at hpd
      · intro p hp hd2
        exact absurd hd2 hd
  · rw [find_nodes_step]
    simp only [hupdFail]
    exact ⟨_, rfl, cacheLookup_insert_self cache node .Failed⟩

theorem find_nodes_step_spec_witness :
    (cacheContains [("gw", PeerProcessingStatus.Ok),
        ("a", PeerProcessingStatus.Pending)] "a" = true) ∧
    ((∀ peers : List String, ∃ cache2 enq,
      find_nodes_step 3 [("gw", PeerProcessingStatus.Ok),
          ("a", PeerProcessingStatus.Pending)] "a" 0 (.ok peers)
        = some (cache2, enq) ∧
      cacheLookup cache2 "a" = some .Ok ∧
      (¬ 0 < 3 → enq = [] ∧ cache2 = cacheInsert [("gw", PeerProcessingStatus.Ok),
          ("a", PeerProcessingStatus.Pending)] "a" .Ok) ∧
      (∀ p d, (p, d) ∈ enq → d = 0 + 1 ∧ p ∈ peers ∧
        cacheContains [("gw", PeerProcessingStatus.Ok),
          ("a", PeerProcessingStatus.Pending)] p = false ∧
        cacheLookup cache2 p = some .Pending) ∧
      (∀ p ∈ peers, 0 < 3 → cacheContains [("gw", PeerProcessingStatus.Ok),
          ("a", PeerProcessingStatus.Pending)] p = false →
        (p, 0 + 1) ∈ enq)) ∧
    (∃ cache2, find_nodes_step 3 [("gw", PeerProcessingStatus.Ok),
        ("a", PeerProcessingStatus.Pending)] "a" 0 (.error ())
        = some (cache2, []) ∧
      cacheLookup cache2 "a" = some .Failed)) :=
  ⟨by decide, find_nodes_step_spec 3 _ "a" 0 (by decide)⟩

end ArweaveRs
